import Mathlib

/-!
Verification development for the engineering-productivity-insights repository
(cmd/throughput and its related source files).

The exact, order-field parts of the Go code (bucketing, percentile
interpolation, window averaging, contributor splitting, the Mann-Whitney U
statistic) are embedded over `ℚ`; the transcendental statistical layer
(normal/t CDFs, the regularized incomplete beta function) is embedded over
`ℝ`, with `math.Erfc` modelled by its mathematical definition as a Gaussian
integral.
-/

namespace Throughput

/-- Ascending sort used to model Go's `sort.Float64s`: a sorted permutation
of the input (any correct sort produces the same list). -/
def sortQ (l : List ℚ) : List ℚ := l.insertionSort (· ≤ ·)

/-- Truncation toward zero, modelling Go's `int(...)` conversion of a
nonnegative-or-negative fractional index. -/
def ratTrunc (q : ℚ) : ℤ := if q < 0 then ⌈q⌉ else ⌊q⌋

/-- Embedding of `percentile` (cmd/throughput/metrics.go): linear
interpolation at zero-based fractional index `(pct/100)·(n-1)` over an
ascending sorted copy, with `-1` as the no-data sentinel for empty input. -/
def percentile (values : List ℚ) (pct : ℚ) : ℚ :=
  let n := values.length
  if n = 0 then -1
  else
    let sorted := sortQ values
    if n = 1 then sorted.getD 0 0
    else
      let idx : ℚ := pct / 100 * ((n : ℚ) - 1)
      let lower0 : ℤ := ratTrunc idx
      let lower : ℤ := if lower0 < 0 then 0 else lower0
      if (n : ℤ) - 1 ≤ lower then sorted.getD (n - 1) 0
      else
        let frac : ℚ := idx - (lower : ℚ)
        sorted.getD lower.toNat 0 +
          frac * (sorted.getD (lower.toNat + 1) 0 - sorted.getD lower.toNat 0)

/-- Embedding of `median` (cmd/throughput/metrics.go). -/
def median (values : List ℚ) : ℚ := percentile values 50

/-- Embedding of `p90` (cmd/throughput/metrics.go). -/
def p90 (values : List ℚ) : ℚ := percentile values 90

/-- Minimum of a non-empty rational list (0 for the empty list). -/
def listMin : List ℚ → ℚ
  | [] => 0
  | x :: xs => xs.foldl min x

/-- Maximum of a non-empty rational list (0 for the empty list). -/
def listMax : List ℚ → ℚ
  | [] => 0
  | x :: xs => xs.foldl max x

theorem listMin_le_mem : ∀ (l : List ℚ), ∀ a ∈ l, listMin l ≤ a := by
  intro l
  cases l with
  | nil => intro a ha; cases ha
  | cons x xs =>
    have key : ∀ (ys : List ℚ) (acc : ℚ),
        ys.foldl min acc ≤ acc ∧ ∀ a ∈ ys, ys.foldl min acc ≤ a := by
      intro ys
      induction ys with
      | nil => intro acc; exact ⟨le_refl _, by intro a ha; cases ha⟩
      | cons z zs ih =>
        intro acc
        simp only [List.foldl_cons]
        refine ⟨le_trans (ih (min acc z)).1 (min_le_left _ _), ?_⟩
        intro a ha
        rcases List.mem_cons.mp ha with h | h
        · subst h; exact le_trans (ih (min acc a)).1 (min_le_right _ _)
        · exact (ih (min acc z)).2 a h
    intro a ha
    rcases List.mem_cons.mp ha with h | h
    · subst h; exact (key xs a).1
    · exact (key xs x).2 a h

theorem mem_le_listMax : ∀ (l : List ℚ), ∀ a ∈ l, a ≤ listMax l := by
  intro l
  cases l with
  | nil => intro a ha; cases ha
  | cons x xs =>
    have key : ∀ (ys : List ℚ) (acc : ℚ),
        acc ≤ ys.foldl max acc ∧ ∀ a ∈ ys, a ≤ ys.foldl max acc := by
      intro ys
      induction ys with
      | nil => intro acc; exact ⟨le_refl _, by intro a ha; cases ha⟩
      | cons z zs ih =>
        intro acc
        simp only [List.foldl_cons]
        refine ⟨le_trans (le_max_left _ _) (ih (max acc z)).1, ?_⟩
        intro a ha
        rcases List.mem_cons.mp ha with h | h
        · subst h; exact le_trans (le_max_right _ _) (ih (max acc a)).1
        · exact (ih (max acc z)).2 a h
    intro a ha
    rcases List.mem_cons.mp ha with h | h
    · subst h; exact (key xs a).1
    · exact (key xs x).2 a h

theorem sortQ_perm (l : List ℚ) : (sortQ l).Perm l :=
  List.perm_insertionSort _ l

theorem sortQ_sorted (l : List ℚ) : (sortQ l).Sorted (· ≤ ·) :=
  List.sorted_insertionSort _ l

theorem sortQ_length (l : List ℚ) : (sortQ l).length = l.length :=
  (sortQ_perm l).length_eq

theorem sortQ_mem {l : List ℚ} {a : ℚ} (h : a ∈ sortQ l) : a ∈ l :=
  (sortQ_perm l).mem_iff.mp h

theorem getD_mem_of_lt {l : List ℚ} {i : ℕ} (h : i < l.length) :
    l.getD i 0 ∈ l := by
  rw [List.getD_eq_getElem l 0 h]
  exact List.getElem_mem h

/-- Elements of a `≤`-sorted list are monotone in the index. -/
theorem sorted_getD_mono {l : List ℚ} (hs : l.Sorted (· ≤ ·)) {i j : ℕ}
    (hij : i ≤ j) (hj : j < l.length) : l.getD i 0 ≤ l.getD j 0 := by
  rcases eq_or_lt_of_le hij with rfl | hlt
  · exact le_refl _
  · rw [List.getD_eq_getElem l 0 (lt_of_le_of_lt hij hj),
      List.getD_eq_getElem l 0 hj]
    exact List.Sorted.rel_get_of_lt hs (by simpa using hlt)

theorem sorted_head_le_mem {l : List ℚ} (hs : l.Sorted (· ≤ ·)) {a : ℚ}
    (ha : a ∈ l) : l.getD 0 0 ≤ a := by
  obtain ⟨i, hi, rfl⟩ := List.getElem_of_mem ha
  rw [← List.getD_eq_getElem l 0 hi]
  exact sorted_getD_mono hs (Nat.zero_le i) hi

theorem mem_le_sorted_last {l : List ℚ} (hs : l.Sorted (· ≤ ·)) {a : ℚ}
    (ha : a ∈ l) : a ≤ l.getD (l.length - 1) 0 := by
  obtain ⟨i, hi, rfl⟩ := List.getElem_of_mem ha
  rw [← List.getD_eq_getElem l 0 hi]
  exact sorted_getD_mono hs (by omega) (by omega)

theorem listMin_mem : ∀ (l : List ℚ), l ≠ [] → listMin l ∈ l := by
  intro l
  cases l with
  | nil => intro h; exact absurd rfl h
  | cons x xs =>
    intro _
    have key : ∀ (ys : List ℚ) (acc : ℚ),
        ys.foldl min acc = acc ∨ ys.foldl min acc ∈ ys := by
      intro ys
      induction ys with
      | nil => intro acc; exact Or.inl rfl
      | cons z zs ih =>
        intro acc
        simp only [List.foldl_cons]
        rcases ih (min acc z) with h | h
        · rw [h]
          rcases min_choice acc z with h2 | h2
          · exact Or.inl h2
          · exact Or.inr (by rw [h2]; exact List.mem_cons_self z zs)
        · exact Or.inr (List.mem_cons_of_mem z h)
    show xs.foldl min x ∈ x :: xs
    rcases key xs x with h | h
    · rw [h]; exact List.mem_cons_self x xs
    · exact List.mem_cons_of_mem x h

theorem listMax_mem : ∀ (l : List ℚ), l ≠ [] → listMax l ∈ l := by
  intro l
  cases l with
  | nil => intro h; exact absurd rfl h
  | cons x xs =>
    intro _
    have key : ∀ (ys : List ℚ) (acc : ℚ),
        ys.foldl max acc = acc ∨ ys.foldl max acc ∈ ys := by
      intro ys
      induction ys with
      | nil => intro acc; exact Or.inl rfl
      | cons z zs ih =>
        intro acc
        simp only [List.foldl_cons]
        rcases ih (max acc z) with h | h
        · rw [h]
          rcases max_choice acc z with h2 | h2
          · exact Or.inl h2
          · exact Or.inr (by rw [h2]; exact List.mem_cons_self z zs)
        · exact Or.inr (List.mem_cons_of_mem z h)
    show xs.foldl max x ∈ x :: xs
    rcases key xs x with h | h
    · rw [h]; exact List.mem_cons_self x xs
    · exact List.mem_cons_of_mem x h

theorem sortQ_head_eq_listMin {v : List ℚ} (hv : v ≠ []) :
    (sortQ v).getD 0 0 = listMin v := by
  have hlen : (sortQ v).length = v.length := sortQ_length v
  have hne : (sortQ v).length ≠ 0 := by
    simpa [hlen] using List.length_eq_zero.not.mpr hv
  apply le_antisymm
  · exact sorted_head_le_mem (sortQ_sorted v)
      ((sortQ_perm v).mem_iff.mpr (listMin_mem v hv))
  · exact listMin_le_mem v _ (sortQ_mem (getD_mem_of_lt (by omega)))

theorem sortQ_last_eq_listMax {v : List ℚ} (hv : v ≠ []) :
    (sortQ v).getD ((sortQ v).length - 1) 0 = listMax v := by
  have hlen : (sortQ v).length = v.length := sortQ_length v
  have hne : (sortQ v).length ≠ 0 := by
    simpa [hlen] using List.length_eq_zero.not.mpr hv
  apply le_antisymm
  · exact mem_le_listMax v _ (sortQ_mem (getD_mem_of_lt (by omega)))
  · exact mem_le_sorted_last (sortQ_sorted v)
      ((sortQ_perm v).mem_iff.mpr (listMax_mem v hv))

/-- The interpolation branch of `percentile` stays within the sorted copy's
endpoints for every nonnegative percentile argument. -/
theorem percentile_bounds (v : List ℚ) (hv : v ≠ []) (pct : ℚ) (hp : 0 ≤ pct) :
    listMin v ≤ percentile v pct ∧ percentile v pct ≤ listMax v := by
  have hn0 : v.length ≠ 0 := List.length_eq_zero.not.mpr hv
  rcases Nat.lt_or_ge v.length 2 with h2 | h2
  · -- length 1
    have h1 : v.length = 1 := by omega
    obtain ⟨x, rfl⟩ := List.length_eq_one.mp h1
    have hx : percentile [x] pct = x := by
      simp [percentile, sortQ]
    rw [hx]
    constructor
    · exact listMin_le_mem [x] x (by simp)
    · exact mem_le_listMax [x] x (by simp)
  · -- length ≥ 2: interpolation or clamp
    have hslen : (sortQ v).length = v.length := sortQ_length v
    have hsorted := sortQ_sorted v
    have hidx : (0 : ℚ) ≤ pct / 100 * ((v.length : ℚ) - 1) := by
      apply mul_nonneg (by positivity)
      have : (2 : ℚ) ≤ (v.length : ℚ) := by exact_mod_cast h2
      linarith
    set idx : ℚ := pct / 100 * ((v.length : ℚ) - 1) with hidxdef
    have htr : ratTrunc idx = ⌊idx⌋ := by
      simp [ratTrunc, not_lt.mpr hidx]
    have hfl : (0 : ℤ) ≤ ⌊idx⌋ := Int.floor_nonneg.mpr hidx
    have hni : percentile v pct =
        if (v.length : ℤ) - 1 ≤ ⌊idx⌋ then (sortQ v).getD (v.length - 1) 0
        else (sortQ v).getD ⌊idx⌋.toNat 0 +
          (idx - (⌊idx⌋ : ℚ)) *
            ((sortQ v).getD (⌊idx⌋.toNat + 1) 0 - (sortQ v).getD ⌊idx⌋.toNat 0) := by
      simp only [percentile, ← hidxdef]
      rw [if_neg hn0, if_neg (by omega), htr, if_neg (by omega : ¬ ⌊idx⌋ < 0)]
    rw [hni]
    split_ifs with hclamp
    · -- clamped to last element
      rw [← hslen, sortQ_last_eq_listMax hv]
      constructor
      · exact listMin_le_mem v _ (listMax_mem v hv)
      · exact le_refl _
    · -- genuine interpolation between adjacent sorted elements
      push_neg at hclamp
      have hlow : ⌊idx⌋.toNat + 1 < (sortQ v).length := by
        rw [hslen]; omega
      have hlow0 : ⌊idx⌋.toNat < (sortQ v).length := by omega
      have hmono : (sortQ v).getD ⌊idx⌋.toNat 0 ≤ (sortQ v).getD (⌊idx⌋.toNat + 1) 0 :=
        sorted_getD_mono hsorted (by omega) hlow
      have hfrac0 : (0 : ℚ) ≤ idx - (⌊idx⌋ : ℚ) := by
        have := Int.floor_le idx
        linarith
      have hfrac1 : idx - (⌊idx⌋ : ℚ) ≤ 1 := by
        have := Int.lt_floor_add_one idx
        linarith
      set a := (sortQ v).getD ⌊idx⌋.toNat 0 with hadef
      set b := (sortQ v).getD (⌊idx⌋.toNat + 1) 0 with hbdef
      have hares : a ≤ a + (idx - (⌊idx⌋ : ℚ)) * (b - a) := by nlinarith
      have hbres : a + (idx - (⌊idx⌋ : ℚ)) * (b - a) ≤ b := by nlinarith
      constructor
      · refine le_trans ?_ hares
        exact listMin_le_mem v _ (sortQ_mem (getD_mem_of_lt hlow0))
      · refine le_trans hbres ?_
        exact mem_le_listMax v _ (sortQ_mem (getD_mem_of_lt hlow))

/-- C5 (counterexample): `percentile` returns the sentinel value −1 on a
non-empty input, because interpolated data can hit −1; hence "returns −1
exactly when values is empty" fails as literally stated. -/
theorem percentile_sentinel_on_nonempty :
    percentile [-2, 0] 50 = -1 ∧ ([-2, 0] : List ℚ) ≠ [] := by
  constructor
  · norm_num [percentile, sortQ, ratTrunc, List.insertionSort, List.orderedInsert]
  · simp

/-- C5 (amended): `percentile` returns −1 when the input is empty, returns
the sole element of a one-element input for every pct, equals the minimum at
pct = 0 and the maximum at pct = 100 for length ≥ 2, and lies within
[min, max] at pct = 50 for every non-empty input (the −1 return value is a
distinguished sentinel only when −1 is outside the data's range). -/
theorem percentile_props :
    (∀ pct : ℚ, percentile [] pct = -1) ∧
    (∀ x pct : ℚ, percentile [x] pct = x) ∧
    (∀ v : List ℚ, 2 ≤ v.length → percentile v 0 = listMin v) ∧
    (∀ v : List ℚ, 2 ≤ v.length → percentile v 100 = listMax v) ∧
    (∀ v : List ℚ, v ≠ [] →
      listMin v ≤ percentile v 50 ∧ percentile v 50 ≤ listMax v) := by
  refine ⟨?_, ?_, ?_, ?_, ?_⟩
  · intro pct; simp [percentile]
  · intro x pct; simp [percentile, sortQ]
  · -- pct = 0 gives the minimum
    intro v h2
    have hv : v ≠ [] := by
      intro h; rw [h] at h2; simp at h2
    have hn0 : v.length ≠ 0 := List.length_eq_zero.not.mpr hv
    have hidx : (0 : ℚ) / 100 * ((v.length : ℚ) - 1) = 0 := by ring
    have : percentile v 0 = (sortQ v).getD 0 0 := by
      simp only [percentile, hidx]
      rw [if_neg hn0, if_neg (by omega)]
      have htr : ratTrunc 0 = 0 := by simp [ratTrunc]
      rw [htr]
      rw [if_neg (by omega : ¬ (0 : ℤ) < 0), if_neg (by omega : ¬ (v.length : ℤ) - 1 ≤ 0)]
      simp
    rw [this, sortQ_head_eq_listMin hv]
  · -- pct = 100 gives the maximum
    intro v h2
    have hv : v ≠ [] := by
      intro h; rw [h] at h2; simp at h2
    have hn0 : v.length ≠ 0 := List.length_eq_zero.not.mpr hv
    have hidx : (100 : ℚ) / 100 * ((v.length : ℚ) - 1) = ((v.length : ℤ) - 1 : ℤ) := by
      push_cast; ring
    have htr : ratTrunc ((100 : ℚ) / 100 * ((v.length : ℚ) - 1)) = (v.length : ℤ) - 1 := by
      rw [hidx, ratTrunc.eq_def]
      rw [if_neg (by
        push_cast
        have hc : (2 : ℚ) ≤ (v.length : ℚ) := by exact_mod_cast h2
        linarith)]
      exact Int.floor_intCast _
    have : percentile v 100 = (sortQ v).getD (v.length - 1) 0 := by
      simp only [percentile]
      rw [if_neg hn0, if_neg (by omega), htr,
        if_neg (by omega : ¬ (v.length : ℤ) - 1 < 0), if_pos (by omega)]
    rw [this, ← sortQ_length v, sortQ_last_eq_listMax hv]
  · intro v hv
    exact percentile_bounds v hv 50 (by norm_num)

/-- C5 (witness): the amended percentile properties at concrete inputs. -/
theorem percentile_props_witness :
    percentile [] 37 = -1 ∧ percentile [9] 83 = 9 ∧
    percentile [4, 1, 3] 0 = listMin [4, 1, 3] ∧
    percentile [4, 1, 3] 100 = listMax [4, 1, 3] ∧
    listMin [4, 1, 3] ≤ percentile [4, 1, 3] 50 :=
  ⟨percentile_props.1 37, percentile_props.2.1 9 83,
    percentile_props.2.2.1 [4, 1, 3] (by decide),
    percentile_props.2.2.2.1 [4, 1, 3] (by decide),
    (percentile_props.2.2.2.2 [4, 1, 3] (by decide)).1⟩

/-! ### Weekly aggregation (aggregateCSV, src/unnamed/part_007 lines 24-140)

A week range is kept as the Unix epochs of its start and end dates at
midnight UTC; the bucketing bound extends the end date to 23:59:59, i.e.
`endEpoch + 86399`, exactly as `aggregateCSV` precomputes its bounds. -/

structure weekRangeE where
  startEpoch : ℤ
  endEpoch : ℤ
deriving DecidableEq

/-- The inclusive membership test `bounds[i].startEpoch ≤ t ≤ bounds[i].endEpoch`
used by the PR bucketing loop of `aggregateCSV`. -/
def inWeek (t : ℤ) (w : weekRangeE) : Bool :=
  decide (w.startEpoch ≤ t ∧ t ≤ w.endEpoch + 86399)

/-- Index of the first week range containing `t`, mirroring the inner loop of
`aggregateCSV` (which breaks at the first match). -/
def route (t : ℤ) : List weekRangeE → Option ℕ
  | [] => none
  | w :: ws => if inWeek t w then some 0 else (route t ws).map (· + 1)

/-- Increment the counter at one bucket index. -/
def bumpAt : List ℕ → ℕ → List ℕ
  | [], _ => []
  | c :: cs, 0 => (c + 1) :: cs
  | c :: cs, n + 1 => c :: bumpAt cs n

/-- The per-week `prsMerged` counters produced by the bucketing loop of
`aggregateCSV`: one counter per week range, incremented at the first matching
range of each PR merge epoch, unmatched PRs dropped. -/
def routeCounts (weeks : List weekRangeE) (prs : List ℤ) : List ℕ :=
  prs.foldl
    (fun acc t =>
      match route t weeks with
      | some i => bumpAt acc i
      | none => acc)
    (List.replicate weeks.length 0)

theorem bumpAt_length : ∀ (l : List ℕ) (i : ℕ), (bumpAt l i).length = l.length := by
  intro l
  induction l with
  | nil => intro i; rfl
  | cons c cs ih =>
    intro i
    cases i with
    | zero => rfl
    | succ n => simp [bumpAt, ih n]

theorem bumpAt_sum : ∀ (l : List ℕ) (i : ℕ), i < l.length →
    (bumpAt l i).sum = l.sum + 1 := by
  intro l
  induction l with
  | nil => intro i hi; cases hi
  | cons c cs ih =>
    intro i hi
    cases i with
    | zero => simp [bumpAt]; omega
    | succ n =>
      have : n < cs.length := by simpa using hi
      simp [bumpAt, ih n this]
      omega

theorem route_lt_length {t : ℤ} : ∀ {ws : List weekRangeE} {i : ℕ},
    route t ws = some i → i < ws.length := by
  intro ws
  induction ws with
  | nil => intro i h; simp [route] at h
  | cons w rest ih =>
    intro i h
    by_cases hw : inWeek t w
    · simp [route, hw] at h
      subst h
      simp
    · simp [route, hw] at h
      obtain ⟨j, hj, rfl⟩ := h
      have := ih hj
      simpa using Nat.succ_lt_succ this

theorem route_none_iff {t : ℤ} : ∀ {ws : List weekRangeE},
    route t ws = none ↔ ∀ w ∈ ws, ¬ inWeek t w = true := by
  intro ws
  induction ws with
  | nil => simp [route]
  | cons w rest ih =>
    by_cases hw : inWeek t w
    · simp [route, hw]
    · simp [route, hw, ih]

theorem route_spec {t : ℤ} : ∀ {ws : List weekRangeE} {i : ℕ},
    route t ws = some i →
      ∃ h : i < ws.length,
        inWeek t (ws.get ⟨i, h⟩) = true ∧
        ∀ j, j < i → ∀ h2 : j < ws.length, ¬ inWeek t (ws.get ⟨j, h2⟩) = true := by
  intro ws
  induction ws with
  | nil => intro i h; simp [route] at h
  | cons w rest ih =>
    intro i h
    by_cases hw : inWeek t w
    · simp [route, hw] at h
      subst h
      exact ⟨by simp, by simpa using hw,
        fun j hj => absurd hj (Nat.not_lt_zero j)⟩
    · simp [route, hw] at h
      obtain ⟨j, hj, rfl⟩ := h
      obtain ⟨hlt, hmem, hfirst⟩ := ih hj
      refine ⟨by simpa using Nat.succ_lt_succ hlt, by simpa using hmem, ?_⟩
      intro k hk hk2
      cases k with
      | zero => simpa using hw
      | succ m =>
        have hm : m < j := by omega
        have hm2 : m < rest.length := by simpa using hk2
        simpa using hfirst m hm hm2

/-- Under pairwise-disjoint ranges, any two matching indices agree. -/
theorem inWeek_unique {t : ℤ} {ws : List weekRangeE}
    (hdisj : ws.Pairwise (fun w1 w2 => ∀ s : ℤ, ¬(inWeek s w1 = true ∧ inWeek s w2 = true)))
    {i j : ℕ} (hi : i < ws.length) (hj : j < ws.length)
    (hwi : inWeek t (ws.get ⟨i, hi⟩) = true) (hwj : inWeek t (ws.get ⟨j, hj⟩) = true) :
    i = j := by
  rcases Nat.lt_trichotomy i j with hlt | heq | hgt
  · exact absurd ⟨hwi, hwj⟩
      (List.pairwise_iff_get.mp hdisj ⟨i, hi⟩ ⟨j, hj⟩ (by simpa using hlt) t)
  · exact heq
  · exact absurd ⟨hwj, hwi⟩
      (List.pairwise_iff_get.mp hdisj ⟨j, hj⟩ ⟨i, hi⟩ (by simpa using hgt) t)

theorem route_isSome_eq_any {t : ℤ} : ∀ {ws : List weekRangeE},
    (route t ws).isSome = ws.any (fun w => inWeek t w) := by
  intro ws
  induction ws with
  | nil => simp [route]
  | cons w rest ih =>
    by_cases hw : inWeek t w
    · simp [route, hw]
    · simp [route, hw, ← ih]

theorem routeCounts_sum_aux (weeks : List weekRangeE) :
    ∀ (prs : List ℤ) (acc : List ℕ), acc.length = weeks.length →
      (prs.foldl
        (fun acc t =>
          match route t weeks with
          | some i => bumpAt acc i
          | none => acc) acc).sum =
        acc.sum + prs.countP (fun t => (route t weeks).isSome) := by
  intro prs
  induction prs with
  | nil => intro acc _; simp
  | cons t rest ih =>
    intro acc hlen
    rcases hroute : route t weeks with _ | i
    · simp only [List.foldl_cons, hroute]
      rw [ih acc hlen]
      simp [List.countP_cons, hroute]
    · simp only [List.foldl_cons, hroute]
      rw [ih (bumpAt acc i) (by rw [bumpAt_length]; exact hlen)]
      rw [bumpAt_sum acc i (by rw [hlen]; exact route_lt_length hroute)]
      simp [List.countP_cons, hroute]
      omega

/-- C6: each record is routed to at most one week bucket, namely the first
matching range, which under disjointness is the only matching range; records
matching no range are dropped; and the total of the per-week `prsMerged`
counters equals the number of records whose merge epoch lies in some range. -/
theorem weekly_bucketing (prs : List ℤ) (weeks : List weekRangeE)
    (hdisj : weeks.Pairwise
      (fun w1 w2 => ∀ s : ℤ, ¬(inWeek s w1 = true ∧ inWeek s w2 = true))) :
    (∀ t i, route t weeks = some i →
      ∃ h : i < weeks.length,
        inWeek t (weeks.get ⟨i, h⟩) = true ∧
        ∀ j, ∀ h2 : j < weeks.length, inWeek t (weeks.get ⟨j, h2⟩) = true → j = i) ∧
    (∀ t, route t weeks = none → ∀ w ∈ weeks, ¬ inWeek t w = true) ∧
    (routeCounts weeks prs).sum = prs.countP (fun t => weeks.any (inWeek t)) := by
  refine ⟨?_, ?_, ?_⟩
  · intro t i h
    obtain ⟨hlt, hmem, _⟩ := route_spec h
    refine ⟨hlt, hmem, ?_⟩
    intro j h2 hj
    exact inWeek_unique hdisj h2 hlt hj hmem
  · intro t h
    exact route_none_iff.mp h
  · rw [routeCounts, routeCounts_sum_aux weeks prs _ (by simp)]
    have hpred : (fun t => (route t weeks).isSome) = fun t => weeks.any (inWeek t) := by
      funext t
      exact route_isSome_eq_any
    rw [hpred]
    simp

/-- C6 (witness): the bucketing facts at a concrete disjoint pair of weeks
with one matched and one unmatched record. -/
theorem weekly_bucketing_witness :
    (routeCounts [⟨0, 518400⟩, ⟨604800, 1123200⟩] [3600, 2000000]).sum =
      ([3600, 2000000] : List ℤ).countP
        (fun t => ([⟨0, 518400⟩, ⟨604800, 1123200⟩] : List weekRangeE).any (inWeek t)) :=
  (weekly_bucketing [3600, 2000000] [⟨0, 518400⟩, ⟨604800, 1123200⟩]
    (by
      refine List.Pairwise.cons ?_ (List.pairwise_singleton _ _)
      intro w hw s hcon
      simp only [List.mem_singleton] at hw
      subst hw
      rcases hcon with ⟨h1, h2⟩
      simp only [inWeek, decide_eq_true_eq] at h1 h2
      omega)).2.2

/-! ### Consolidated stats rows (src/unnamed/part_007)

The concatenated source holds two versions of `buildRow`/`generateStats`:
one (lines 295-358) reports the signed absolute change when `firstAvg = 0`
and `lastAvg ≠ 0` and the literal string "0.0%" when both are 0; the other
(lines 580-661) reports "N/A" whenever `firstAvg = 0`.  The formatted
`pctChange` string is modelled by the tagged type `PctRepr`, keeping the
branch structure and the numeric value and dropping only decimal formatting. -/

structure weekStats where
  prsMerged : ℕ
  uniqueAuthors : ℕ
  prsPerEngineer : ℚ
  medianReviewSpeed : ℚ
  medianCycleTime : ℚ
  pctOnaInvolved : ℚ
  pctReverts : ℚ
deriving DecidableEq

structure metricDef where
  name : String
  extract : weekStats → ℚ
  valid : weekStats → Bool

def prsMergedMetric : metricDef :=
  ⟨"prs_merged", fun ws => (ws.prsMerged : ℚ), fun ws => decide (0 < ws.prsMerged)⟩

def uniqueAuthorsMetric : metricDef :=
  ⟨"unique_authors", fun ws => (ws.uniqueAuthors : ℚ), fun ws => decide (0 < ws.prsMerged)⟩

def prsPerEngineerMetric : metricDef :=
  ⟨"prs_per_engineer", fun ws => ws.prsPerEngineer, fun ws => decide (0 < ws.prsMerged)⟩

def medianReviewSpeedMetric : metricDef :=
  ⟨"median_review_speed_hours", fun ws => ws.medianReviewSpeed,
    fun ws => decide (0 < ws.prsMerged) && decide (0 ≤ ws.medianReviewSpeed)⟩

def pctRevertsMetric : metricDef :=
  ⟨"pct_reverts", fun ws => ws.pctReverts, fun ws => decide (0 < ws.prsMerged)⟩

def pctOnaInvolvedMetric : metricDef :=
  ⟨"pct_ona_involved", fun ws => ws.pctOnaInvolved, fun ws => decide (0 < ws.prsMerged)⟩

/-- The `allMetrics` table of the consolidated-CSV version (6 rows). -/
def allMetrics : List metricDef :=
  [prsMergedMetric, uniqueAuthorsMetric, prsPerEngineerMetric,
    medianReviewSpeedMetric, pctRevertsMetric, pctOnaInvolvedMetric]

/-- Embedding of `trendWindow`: first-N%-vs-last-N% averages over the
metric-valid values, window size `max 1 ⌊n·windowPct/100⌋`, `none` when
fewer than 2 valid values exist. -/
def trendWindow (weeks : List weekStats) (md : metricDef) (windowPct : ℤ) :
    Option (ℚ × ℚ × ℕ × ℕ) :=
  let values := (weeks.filter (fun ws => md.valid ws)).map md.extract
  let n := values.length
  if n < 2 then none
  else
    let w0 : ℤ := ⌊(n : ℚ) * (windowPct : ℚ) / 100⌋
    let wsize : ℕ := if w0 < 1 then 1 else w0.toNat
    some ((values.take wsize).sum / (wsize : ℚ),
      (values.drop (n - wsize)).sum / (wsize : ℚ), n, wsize)

/-- The below-threshold group of a metric's valid weeks. -/
def belowGroup (weeks : List weekStats) (md : metricDef) (threshold : ℚ) : List ℚ :=
  (weeks.filter (fun ws => md.valid ws && decide (ws.pctOnaInvolved < threshold))).map md.extract

/-- The at-or-above-threshold group of a metric's valid weeks. -/
def aboveGroup (weeks : List weekStats) (md : metricDef) (threshold : ℚ) : List ℚ :=
  (weeks.filter (fun ws => md.valid ws && !decide (ws.pctOnaInvolved < threshold))).map md.extract

/-- Embedding of `thresholdWindow`: splits the metric-valid weeks by the Ona
threshold and averages each group, `none` when either group is empty. -/
def thresholdWindow (weeks : List weekStats) (md : metricDef) (threshold : ℚ) :
    Option (ℚ × ℚ × ℕ × ℕ × ℕ) :=
  let belowVals := belowGroup weeks md threshold
  let aboveVals := aboveGroup weeks md threshold
  if belowVals = [] ∨ aboveVals = [] then none
  else
    some (belowVals.sum / (belowVals.length : ℚ), aboveVals.sum / (aboveVals.length : ℚ),
      belowVals.length + aboveVals.length, belowVals.length, aboveVals.length)

/-- The shape of the formatted `pctChange` field. -/
inductive PctRepr where
  | percent (val : ℚ)
  | absolute (val : ℚ)
  | zeroPct
  | na
deriving DecidableEq

/-- The `pctChange` branch of the lines-295-358 `buildRow`: percent ratio
when `firstAvg ≠ 0`, else the signed absolute change when `lastAvg ≠ 0`,
else the literal "0.0%". -/
def pctReprB (firstAvg lastAvg : ℚ) : PctRepr :=
  if firstAvg ≠ 0 then PctRepr.percent ((lastAvg - firstAvg) / |firstAvg| * 100)
  else if lastAvg ≠ 0 then PctRepr.absolute (lastAvg - firstAvg)
  else PctRepr.zeroPct

/-- The `pctChange` branch of the lines-580-661 `buildRow`: percent ratio
when `firstAvg ≠ 0`, else the literal "N/A". -/
def pctReprC (firstAvg lastAvg : ℚ) : PctRepr :=
  if firstAvg ≠ 0 then PctRepr.percent ((lastAvg - firstAvg) / |firstAvg| * 100)
  else PctRepr.na

/-- The numeric core of one consolidated row (correlation columns are
computed downstream of these fields and are independent of them). -/
structure RowCore where
  metric : String
  n : ℕ
  firstWindowSize : ℕ
  lastWindowSize : ℕ
  firstAvg : ℚ
  lastAvg : ℚ
  absChange : ℚ
  pct : PctRepr
deriving DecidableEq

/-- Common shape of both `buildRow` versions: threshold mode when
`onaThreshold > 0`, positional trend mode otherwise; `none` propagates the
window's "not computable" outcome. -/
def buildRowWith (pctOf : ℚ → ℚ → PctRepr) (md : metricDef) (valid : List weekStats)
    (windowPct : ℤ) (onaThreshold : ℚ) : Option RowCore :=
  if 0 < onaThreshold then
    match thresholdWindow valid md onaThreshold with
    | none => none
    | some (fa, la, n, fw, lw) =>
      some ⟨md.name, n, fw, lw, fa, la, la - fa, pctOf fa la⟩
  else
    match trendWindow valid md windowPct with
    | none => none
    | some (fa, la, n, w) =>
      some ⟨md.name, n, w, w, fa, la, la - fa, pctOf fa la⟩

/-- The lines-295-358 `buildRow`. -/
def buildRowB : metricDef → List weekStats → ℤ → ℚ → Option RowCore :=
  buildRowWith pctReprB

/-- The lines-580-661 `buildRow`. -/
def buildRowC : metricDef → List weekStats → ℤ → ℚ → Option RowCore :=
  buildRowWith pctReprC

/-- The activity filter of `generateStats`: drop weeks with no PRs and weeks
below 10% of the mean `prsMerged` of the non-empty weeks. -/
def validWeeks (allStats : List weekStats) : List weekStats :=
  let nonZero := allStats.filter (fun ws => decide (0 < ws.prsMerged))
  if nonZero = [] then []
  else
    let avg : ℚ := ((nonZero.map (fun ws => (ws.prsMerged : ℚ))).sum) / (nonZero.length : ℚ)
    allStats.filter
      (fun ws => decide (0 < ws.prsMerged) && decide (avg * (10 / 100) ≤ (ws.prsMerged : ℚ)))

/-- Embedding of the consolidated `generateStats` (lines 507-573): early
empty result when no non-empty weeks exist or fewer than 4 weeks survive the
activity filter, otherwise one row per metric whose window is computable. -/
def generateStatsRows (allStats : List weekStats) (windowPct : ℤ) (onaThreshold : ℚ) :
    List RowCore :=
  let nonZero := allStats.filter (fun ws => decide (0 < ws.prsMerged))
  if nonZero = [] then []
  else
    let valid := validWeeks allStats
    if valid.length < 4 then []
    else allMetrics.filterMap (fun md => buildRowC md valid windowPct onaThreshold)

theorem buildRowWith_fields (pctOf : ℚ → ℚ → PctRepr) (md : metricDef)
    (valid : List weekStats) (wp : ℤ) (th : ℚ) (r : RowCore)
    (h : buildRowWith pctOf md valid wp th = some r) :
    r.absChange = r.lastAvg - r.firstAvg ∧ r.pct = pctOf r.firstAvg r.lastAvg := by
  unfold buildRowWith at h
  split_ifs at h
  · rcases hw : thresholdWindow valid md th with _ | q
    · rw [hw] at h; cases h
    · obtain ⟨fa, la, n, fw, lw⟩ := q
      rw [hw] at h
      simp only [Option.some.injEq] at h
      subst h
      exact ⟨rfl, rfl⟩
  · rcases hw : trendWindow valid md wp with _ | q
    · rw [hw] at h; cases h
    · obtain ⟨fa, la, n, w⟩ := q
      rw [hw] at h
      simp only [Option.some.injEq] at h
      subst h
      exact ⟨rfl, rfl⟩

/-- C3 (counterexample): the lines-580-661 `buildRow` emits a row with
`firstAvg = 0` and `lastAvg = 100` whose pctChange field is the literal
"N/A", not the signed absolute change. -/
theorem buildRow_na_on_zero_first :
    buildRowC pctRevertsMetric
      [⟨1, 1, 1, -1, -1, 0, 0⟩, ⟨1, 1, 1, -1, -1, 0, 0⟩,
        ⟨1, 1, 1, -1, -1, 0, 100⟩, ⟨1, 1, 1, -1, -1, 0, 100⟩] 25 0 =
      some ⟨"pct_reverts", 4, 1, 1, 0, 100, 100, PctRepr.na⟩ ∧
    PctRepr.na ≠ PctRepr.absolute 100 := by
  constructor
  · norm_num [buildRowC, buildRowWith, trendWindow, pctReprC, pctRevertsMetric,
      List.filter]
  · intro h
    cases h

/-- C3 (amended): every emitted row satisfies
`absChange = lastAvg − firstAvg` and carries the ratio
`absChange/|firstAvg|·100` when `firstAvg ≠ 0`; when `firstAvg = 0`, the
lines-295-358 `buildRow` reports the signed absolute change if
`lastAvg ≠ 0` and the literal "0.0%" otherwise, while the lines-580-661
`buildRow` reports the literal "N/A"; in neither version is a division by
zero performed. -/
theorem buildRow_pctChange (md : metricDef) (valid : List weekStats)
    (wp : ℤ) (th : ℚ) :
    (∀ r, buildRowB md valid wp th = some r →
      r.absChange = r.lastAvg - r.firstAvg ∧
      (r.firstAvg ≠ 0 → r.pct = PctRepr.percent (r.absChange / |r.firstAvg| * 100)) ∧
      (r.firstAvg = 0 → r.lastAvg ≠ 0 → r.pct = PctRepr.absolute r.absChange) ∧
      (r.firstAvg = 0 → r.lastAvg = 0 → r.pct = PctRepr.zeroPct)) ∧
    (∀ r, buildRowC md valid wp th = some r →
      r.absChange = r.lastAvg - r.firstAvg ∧
      (r.firstAvg ≠ 0 → r.pct = PctRepr.percent (r.absChange / |r.firstAvg| * 100)) ∧
      (r.firstAvg = 0 → r.pct = PctRepr.na)) := by
  constructor
  · intro r h
    obtain ⟨habs, hpct⟩ := buildRowWith_fields pctReprB md valid wp th r h
    refine ⟨habs, ?_, ?_, ?_⟩
    · intro h0
      rw [hpct, pctReprB, if_pos h0, habs]
    · intro h0 h1
      rw [hpct, pctReprB, if_neg (by simpa using h0), if_pos h1, habs]
    · intro h0 h1
      rw [hpct, pctReprB, if_neg (by simpa using h0), if_neg (by simpa using h1)]
  · intro r h
    obtain ⟨habs, hpct⟩ := buildRowWith_fields pctReprC md valid wp th r h
    refine ⟨habs, ?_, ?_⟩
    · intro h0
      rw [hpct, pctReprC, if_pos h0, habs]
    · intro h0
      rw [hpct, pctReprC, if_neg (by simpa using h0)]

/-- C3 (witness): the amended pctChange facts at a concrete emitted row. -/
theorem buildRow_pctChange_witness :
    buildRowB prsMergedMetric
      [⟨1, 1, 1, -1, -1, 0, 0⟩, ⟨1, 1, 1, -1, -1, 0, 0⟩,
        ⟨3, 1, 3, -1, -1, 0, 0⟩, ⟨3, 1, 3, -1, -1, 0, 0⟩] 25 0 =
      some ⟨"prs_merged", 4, 1, 1, 1, 3, 2, PctRepr.percent 200⟩ ∧
    (2 : ℚ) = 3 - 1 ∧ (1 : ℚ) ≠ 0 := by
  have h : buildRowB prsMergedMetric
      [⟨1, 1, 1, -1, -1, 0, 0⟩, ⟨1, 1, 1, -1, -1, 0, 0⟩,
        ⟨3, 1, 3, -1, -1, 0, 0⟩, ⟨3, 1, 3, -1, -1, 0, 0⟩] 25 0 =
      some ⟨"prs_merged", 4, 1, 1, 1, 3, 2, PctRepr.percent 200⟩ := by
    norm_num [buildRowB, buildRowWith, trendWindow, pctReprB, prsMergedMetric,
      List.filter]
  have hfacts := (buildRow_pctChange prsMergedMetric
    [⟨1, 1, 1, -1, -1, 0, 0⟩, ⟨1, 1, 1, -1, -1, 0, 0⟩,
      ⟨3, 1, 3, -1, -1, 0, 0⟩, ⟨3, 1, 3, -1, -1, 0, 0⟩] 25 0).1 _ h
  exact ⟨h, by simpa using hfacts.1, by norm_num⟩

/-- C7: `generateStats` yields no rows at all when fewer than 4 weeks
survive the 10%-of-mean activity filter, and in threshold mode an individual
metric's row is omitted exactly when the below-threshold or at/above-threshold
group of that metric's valid weeks is empty; with at least 4 surviving weeks
the emitted rows are exactly the per-metric computable rows. -/
theorem generateStats_not_computable (allStats : List weekStats) (wp : ℤ)
    (th : ℚ) (md : metricDef) (valid : List weekStats) :
    ((validWeeks allStats).length < 4 → generateStatsRows allStats wp th = []) ∧
    (0 < th →
      (buildRowC md valid wp th = none ↔
        belowGroup valid md th = [] ∨ aboveGroup valid md th = [])) ∧
    (4 ≤ (validWeeks allStats).length →
      generateStatsRows allStats wp th =
        allMetrics.filterMap (fun md2 => buildRowC md2 (validWeeks allStats) wp th)) := by
  refine ⟨?_, ?_, ?_⟩
  · intro hlt
    unfold generateStatsRows
    dsimp only
    by_cases h1 : allStats.filter (fun ws => decide (0 < ws.prsMerged)) = []
    · rw [if_pos h1]
    · rw [if_neg h1, if_pos hlt]
  · intro hth
    unfold buildRowC buildRowWith thresholdWindow
    rw [if_pos hth]
    constructor
    · intro h
      by_cases hempty : belowGroup valid md th = [] ∨ aboveGroup valid md th = []
      · exact hempty
      · rw [if_neg hempty] at h
        cases h
    · intro h
      rw [if_pos h]
  · intro hge
    unfold generateStatsRows
    dsimp only
    have hnz : ¬ allStats.filter (fun ws => decide (0 < ws.prsMerged)) = [] := by
      intro hz
      have : validWeeks allStats = [] := by
        unfold validWeeks
        rw [if_pos hz]
      rw [this] at hge
      simp at hge
    rw [if_neg hnz, if_neg (by omega)]

/-- C7 (witness): the not-computable outcomes at concrete inputs. -/
theorem generateStats_not_computable_witness :
    generateStatsRows [] 5 0 = [] ∧
    (buildRowC prsMergedMetric [] 5 1 = none ↔
      belowGroup [] prsMergedMetric 1 = [] ∨ aboveGroup [] prsMergedMetric 1 = []) :=
  ⟨(generateStats_not_computable [] 5 0 prsMergedMetric [] ).1 (by simp [validWeeks]),
    (generateStats_not_computable [] 5 1 prsMergedMetric [] ).2.1 zero_lt_one⟩

/-! ### Monthly aggregation (cmd/throughput/monthly.go)

Week ranges are day-granular UTC dates here; Go's `time.Time` comparisons on
midnight dates are the lexicographic date order, `AddDate(0, 1, -1)` from the
first of a month is its last day, and `AddDate(0, 0, -6)` from the last day
(always ≥ 28) needs no month borrow. -/

structure Date where
  year : ℤ
  month : ℤ
  day : ℤ
deriving DecidableEq

def isLeap (y : ℤ) : Bool :=
  decide ((y % 4 = 0 ∧ y % 100 ≠ 0) ∨ y % 400 = 0)

def daysInMonth (y m : ℤ) : ℤ :=
  if m = 2 then (if isLeap y then 29 else 28)
  else if m = 4 ∨ m = 6 ∨ m = 9 ∨ m = 11 then 30
  else 31

/-- Lexicographic strict order on dates: `time.Time.Before` on midnight UTC
dates. -/
def dateLt (a b : Date) : Bool :=
  decide (a.year < b.year ∨
    (a.year = b.year ∧ (a.month < b.month ∨ (a.month = b.month ∧ a.day < b.day))))

def dateLe (a b : Date) : Bool := dateLt a b || decide (a = b)

structure weekRangeD where
  start : Date
  endD : Date
deriving DecidableEq

/-- The `YYYY-MM` grouping key of a week: calendar month of its start date. -/
def monthKey (w : weekRangeD) : ℤ × ℤ := (w.start.year, w.start.month)

def keyOrderAux (acc : List (ℤ × ℤ)) : List weekRangeD → List (ℤ × ℤ)
  | [] => acc
  | w :: ws => keyOrderAux (if monthKey w ∈ acc then acc else acc ++ [monthKey w]) ws

/-- First-occurrence order of month keys, mirroring the `order` slice built
by `aggregateMonthly`. -/
def keyOrder (ws : List weekRangeD) : List (ℤ × ℤ) := keyOrderAux [] ws

/-- Embedding of `medianFloat`: median of a sorted copy, 0 for empty input. -/
def medianFloat (vals : List ℚ) : ℚ :=
  if vals = [] then 0
  else
    let sorted := sortQ vals
    let n := sorted.length
    if n % 2 = 0 then (sorted.getD (n / 2 - 1) 0 + sorted.getD (n / 2) 0) / 2
    else sorted.getD (n / 2) 0

/-- The span of one month group: `[first day of month, last day of month]`,
extended to the last member week's end when that overruns the month. -/
def monthRangeOf (k : ℤ × ℤ) (paired : List (weekRangeD × weekStats)) : weekRangeD :=
  let members := paired.filter (fun p => monthKey p.1 = k)
  let lastOf : Date := ⟨k.1, k.2, daysInMonth k.1 k.2⟩
  ⟨⟨k.1, k.2, 1⟩,
    members.foldl (fun acc p => if dateLt acc p.1.endD then p.1.endD else acc) lastOf⟩

/-- The stats of one month group: counts summed, rate-type metrics the median
over member weeks with `prsMerged > 0`, duration median `-1` when no member
week qualifies, cycle time always `-1` at monthly level. -/
def monthStatsOf (k : ℤ × ℤ) (paired : List (weekRangeD × weekStats)) : weekStats :=
  let sts := (paired.filter (fun p => monthKey p.1 = k)).map (fun p => p.2)
  let nz := sts.filter (fun ws => decide (0 < ws.prsMerged))
  let reviewSpeedVals :=
    (sts.filter (fun ws => decide (0 ≤ ws.medianReviewSpeed) && decide (0 < ws.prsMerged))).map
      (fun ws => ws.medianReviewSpeed)
  { prsMerged := (sts.map (fun ws => ws.prsMerged)).sum
    uniqueAuthors := (ratTrunc (medianFloat (nz.map (fun ws => (ws.uniqueAuthors : ℚ))))).toNat
    prsPerEngineer := medianFloat (nz.map (fun ws => ws.prsPerEngineer))
    medianReviewSpeed := if reviewSpeedVals = [] then -1 else medianFloat reviewSpeedVals
    medianCycleTime := -1
    pctOnaInvolved := medianFloat (nz.map (fun ws => ws.pctOnaInvolved))
    pctReverts := medianFloat (nz.map (fun ws => ws.pctReverts)) }

/-- The incomplete-month rule of `aggregateMonthly`: the chronologically last
month key is dropped when its group's last week starts before the last day of
that month minus 6 days. -/
def retainedKeys (weeks : List weekRangeD) (stats : List weekStats) : List (ℤ × ℤ) :=
  let paired := weeks.zip stats
  let order := keyOrder weeks
  match order.getLast? with
  | none => order
  | some lastKey =>
    match (paired.filter (fun p => monthKey p.1 = lastKey)).getLast? with
    | none => order
    | some lastP =>
      if dateLt lastP.1.start ⟨lastKey.1, lastKey.2, daysInMonth lastKey.1 lastKey.2 - 6⟩
      then order.dropLast else order

/-- Embedding of `aggregateMonthly` (cmd/throughput/monthly.go lines 18-124). -/
def aggregateMonthly (weeks : List weekRangeD) (stats : List weekStats) :
    List weekRangeD × List weekStats :=
  if weeks = [] then ([], [])
  else
    ((retainedKeys weeks stats).map (fun k => monthRangeOf k (weeks.zip stats)),
      (retainedKeys weeks stats).map (fun k => monthStatsOf k (weeks.zip stats)))

theorem keyOrderAux_mem (k : ℤ × ℤ) :
    ∀ (ws : List weekRangeD) (acc : List (ℤ × ℤ)),
      k ∈ keyOrderAux acc ws ↔ k ∈ acc ∨ ∃ w ∈ ws, monthKey w = k := by
  intro ws
  induction ws with
  | nil => intro acc; simp [keyOrderAux]
  | cons w rest ih =>
    intro acc
    simp only [keyOrderAux]
    rw [ih]
    by_cases hmem : monthKey w ∈ acc
    · rw [if_pos hmem]
      constructor
      · rintro (h | h)
        · exact Or.inl h
        · obtain ⟨x, hx, hk2⟩ := h
          exact Or.inr ⟨x, List.mem_cons_of_mem w hx, hk2⟩
      · rintro (h | h)
        · exact Or.inl h
        · obtain ⟨x, hx, hk2⟩ := h
          rcases List.mem_cons.mp hx with rfl | h3
          · exact Or.inl (hk2 ▸ hmem)
          · exact Or.inr ⟨x, h3, hk2⟩
    · rw [if_neg hmem]
      constructor
      · rintro (h | h)
        · rcases List.mem_append.mp h with h2 | h2
          · exact Or.inl h2
          · refine Or.inr ⟨w, List.mem_cons_self w rest, ?_⟩
            simpa using (List.mem_singleton.mp h2).symm
        · exact Or.inr (by
            obtain ⟨x, hx, hk2⟩ := h
            exact ⟨x, List.mem_cons_of_mem w hx, hk2⟩)
      · rintro (h | h)
        · exact Or.inl (List.mem_append.mpr (Or.inl h))
        · obtain ⟨x, hx, hk2⟩ := h
          rcases List.mem_cons.mp hx with rfl | h3
          · exact Or.inl (List.mem_append.mpr (Or.inr (by simp [hk2])))
          · exact Or.inr ⟨x, h3, hk2⟩

theorem keyOrder_mem {k : ℤ × ℤ} {ws : List weekRangeD} :
    k ∈ keyOrder ws ↔ ∃ w ∈ ws, monthKey w = k := by
  rw [keyOrder, keyOrderAux_mem]
  simp

theorem pairwise_getLast {α : Type} {R : α → α → Prop} {l : List α} {a : α}
    (hp : l.Pairwise R) (h : l.getLast? = some a) :
    ∀ b ∈ l, b = a ∨ R b a := by
  intro b hb
  have hl : l.dropLast ++ [a] = l := List.dropLast_append_getLast? a h
  rw [← hl] at hp hb
  rcases List.mem_append.mp hb with h2 | h2
  · exact Or.inr ((List.pairwise_append.mp hp).2.2 b h2 a (List.mem_singleton_self a))
  · exact Or.inl (List.mem_singleton.mp h2)

theorem dateLt_same_month {a b : Date} (hy : a.year = b.year) (hm : a.month = b.month) :
    (dateLt a b = true) ↔ a.day < b.day := by
  simp [dateLt, hy, hm]

theorem dateLe_same_month_day {a b : Date} (hy : a.year = b.year)
    (hm : a.month = b.month) (h : dateLe a b = true) : a.day ≤ b.day := by
  rcases Bool.or_eq_true_iff.mp h with h2 | h2
  · exact le_of_lt ((dateLt_same_month hy hm).mp h2)
  · rw [of_decide_eq_true h2]

/-- C8: `aggregateMonthly` drops the chronologically last month group in
full — span and stats together — exactly when no week of that group starts
within the final 7 days of that calendar month; in particular five weeks
spanning Jan 26 - Mar 1 whose final week starts on Mar 1 keep only the
January and February groups. -/
theorem aggregateMonthly_incomplete_rule (weeks : List weekRangeD)
    (stats : List weekStats) (hlen : weeks.length ≤ stats.length)
    (hsorted : weeks.Pairwise (fun w1 w2 => dateLe w1.start w2.start = true))
    (k : ℤ × ℤ) (hk : (keyOrder weeks).getLast? = some k) :
    (aggregateMonthly weeks stats).2.length = (aggregateMonthly weeks stats).1.length ∧
    ((aggregateMonthly weeks stats).1.map (fun r => (r.start.year, r.start.month)) =
      if ∃ w ∈ weeks, monthKey w = k ∧ daysInMonth k.1 k.2 - 6 ≤ w.start.day
      then keyOrder weeks
      else (keyOrder weeks).dropLast) ∧
    (aggregateMonthly
        [⟨⟨2026, 1, 26⟩, ⟨2026, 2, 1⟩⟩, ⟨⟨2026, 2, 2⟩, ⟨2026, 2, 8⟩⟩,
          ⟨⟨2026, 2, 9⟩, ⟨2026, 2, 15⟩⟩, ⟨⟨2026, 2, 16⟩, ⟨2026, 2, 22⟩⟩,
          ⟨⟨2026, 3, 1⟩, ⟨2026, 3, 7⟩⟩]
        (List.replicate 5 ⟨0, 0, 0, -1, -1, 0, 0⟩)).1.map
      (fun r => (r.start.year, r.start.month)) = [(2026, 1), (2026, 2)] := by
  have hweeks : weeks ≠ [] := by
    intro h
    rw [h] at hk
    simp [keyOrder, keyOrderAux] at hk
  refine ⟨?_, ?_, ?_⟩
  · rw [aggregateMonthly, if_neg hweeks]
    simp
  · rw [aggregateMonthly, if_neg hweeks]
    have hmapkeys :
        ((retainedKeys weeks stats).map (fun kk => monthRangeOf kk (weeks.zip stats))).map
          (fun r => (r.start.year, r.start.month)) = retainedKeys weeks stats := by
      rw [List.map_map]
      have : ((fun r : weekRangeD => (r.start.year, r.start.month)) ∘
          fun kk => monthRangeOf kk (weeks.zip stats)) = id := by
        funext kk
        simp [monthRangeOf]
      rw [this, List.map_id]
    rw [hmapkeys]
    -- reduce retainedKeys at the known last key
    have hkm : k ∈ keyOrder weeks := List.mem_of_mem_getLast? hk
    obtain ⟨w0, hw0, hw0k⟩ := keyOrder_mem.mp hkm
    have hfst : (weeks.zip stats).map Prod.fst = weeks := List.map_fst_zip weeks stats hlen
    have hw0p : ∃ p ∈ weeks.zip stats, p.1 = w0 := by
      have : w0 ∈ (weeks.zip stats).map Prod.fst := by rw [hfst]; exact hw0
      obtain ⟨p, hp, hpe⟩ := List.mem_map.mp this
      exact ⟨p, hp, hpe⟩
    set lg := (weeks.zip stats).filter (fun p => monthKey p.1 = k) with hlgdef
    have hlgne : lg ≠ [] := by
      obtain ⟨p, hp, hpe⟩ := hw0p
      intro hnil
      have := List.filter_eq_nil_iff.mp hnil p hp
      rw [hpe, hw0k] at this
      simp at this
    obtain ⟨lastP, hlast⟩ : ∃ a, lg.getLast? = some a := by
      cases hl : lg.getLast? with
      | none => exact absurd (List.getLast?_eq_none_iff.mp hl) hlgne
      | some a => exact ⟨a, rfl⟩
    have hretained : retainedKeys weeks stats =
        if dateLt lastP.1.start ⟨k.1, k.2, daysInMonth k.1 k.2 - 6⟩
        then (keyOrder weeks).dropLast else keyOrder weeks := by
      rw [retainedKeys]
      simp only [hk, ← hlgdef, hlast]
    rw [hretained]
    -- relate the code's last-member check to the existential over members
    have hlastmem : lastP ∈ lg := List.mem_of_mem_getLast? hlast
    have hlastkey : monthKey lastP.1 = k := by
      have := (List.mem_filter.mp hlastmem).2
      simpa using this
    have hlastweeks : lastP.1 ∈ weeks := by
      rw [← hfst]
      exact List.mem_map_of_mem Prod.fst (List.mem_filter.mp hlastmem).1
    have hpairp : (weeks.zip stats).Pairwise
        (fun p q : weekRangeD × weekStats => dateLe p.1.start q.1.start = true) := by
      have := (List.pairwise_map (f := Prod.fst)
        (R := fun w1 w2 : weekRangeD => dateLe w1.start w2.start = true)
        (l := weeks.zip stats)).mp (by rw [hfst]; exact hsorted)
      exact this
    have hlgp : lg.Pairwise
        (fun p q : weekRangeD × weekStats => dateLe p.1.start q.1.start = true) :=
      hpairp.sublist (List.filter_sublist _)
    have hmax : ∀ p ∈ lg, p.1.start.day ≤ lastP.1.start.day := by
      intro p hp
      have hpkey : monthKey p.1 = k := by
        have := (List.mem_filter.mp hp).2
        simpa using this
      rcases pairwise_getLast hlgp hlast p hp with rfl | hle
      · exact le_refl _
      · exact dateLe_same_month_day
          (by
            have h1 : p.1.start.year = k.1 := congrArg Prod.fst hpkey
            have h2 : lastP.1.start.year = k.1 := congrArg Prod.fst hlastkey
            rw [h1, h2])
          (by
            have h1 : p.1.start.month = k.2 := congrArg Prod.snd hpkey
            have h2 : lastP.1.start.month = k.2 := congrArg Prod.snd hlastkey
            rw [h1, h2])
          hle
    have hylast : lastP.1.start.year = k.1 := congrArg Prod.fst hlastkey
    have hmlast : lastP.1.start.month = k.2 := congrArg Prod.snd hlastkey
    have hcondiff : (dateLt lastP.1.start ⟨k.1, k.2, daysInMonth k.1 k.2 - 6⟩ = true) ↔
        ¬ ∃ w ∈ weeks, monthKey w = k ∧ daysInMonth k.1 k.2 - 6 ≤ w.start.day := by
      rw [dateLt_same_month hylast hmlast]
      dsimp only
      constructor
      · intro hlt hex
        obtain ⟨w, hw, hwk, hwday⟩ := hex
        have : ∃ p ∈ weeks.zip stats, p.1 = w := by
          have : w ∈ (weeks.zip stats).map Prod.fst := by rw [hfst]; exact hw
          obtain ⟨p, hp, hpe⟩ := List.mem_map.mp this
          exact ⟨p, hp, hpe⟩
        obtain ⟨p, hp, rfl⟩ := this
        have hplg : p ∈ lg := by
          rw [hlgdef]
          exact List.mem_filter.mpr ⟨hp, by simpa using hwk⟩
        have := hmax p hplg
        omega
      · intro hnex
        by_contra hganz
        exact hnex ⟨lastP.1, hlastweeks, hlastkey, by omega⟩
    by_cases hex : ∃ w ∈ weeks, monthKey w = k ∧ daysInMonth k.1 k.2 - 6 ≤ w.start.day
    · rw [if_pos hex, if_neg (fun h => (hcondiff.mp h) hex)]
    · rw [if_neg hex, if_pos (hcondiff.mpr hex)]
  · decide

/-- C8 (witness): the incomplete-month rule applied to the Jan 26 - Mar 1
example. -/
theorem aggregateMonthly_incomplete_rule_witness :
    (aggregateMonthly
        [⟨⟨2026, 1, 26⟩, ⟨2026, 2, 1⟩⟩, ⟨⟨2026, 2, 2⟩, ⟨2026, 2, 8⟩⟩,
          ⟨⟨2026, 2, 9⟩, ⟨2026, 2, 15⟩⟩, ⟨⟨2026, 2, 16⟩, ⟨2026, 2, 22⟩⟩,
          ⟨⟨2026, 3, 1⟩, ⟨2026, 3, 7⟩⟩]
        (List.replicate 5 ⟨0, 0, 0, -1, -1, 0, 0⟩)).2.length =
      (aggregateMonthly
        [⟨⟨2026, 1, 26⟩, ⟨2026, 2, 1⟩⟩, ⟨⟨2026, 2, 2⟩, ⟨2026, 2, 8⟩⟩,
          ⟨⟨2026, 2, 9⟩, ⟨2026, 2, 15⟩⟩, ⟨⟨2026, 2, 16⟩, ⟨2026, 2, 22⟩⟩,
          ⟨⟨2026, 3, 1⟩, ⟨2026, 3, 7⟩⟩]
        (List.replicate 5 ⟨0, 0, 0, -1, -1, 0, 0⟩)).1.length :=
  (aggregateMonthly_incomplete_rule
    [⟨⟨2026, 1, 26⟩, ⟨2026, 2, 1⟩⟩, ⟨⟨2026, 2, 2⟩, ⟨2026, 2, 8⟩⟩,
      ⟨⟨2026, 2, 9⟩, ⟨2026, 2, 15⟩⟩, ⟨⟨2026, 2, 16⟩, ⟨2026, 2, 22⟩⟩,
      ⟨⟨2026, 3, 1⟩, ⟨2026, 3, 7⟩⟩]
    (List.replicate 5 ⟨0, 0, 0, -1, -1, 0, 0⟩)
    (by decide) (by decide) (2026, 3) (by decide)).1

/-! ### Contributor analysis (computeTopContributors, src/unnamed/part_000) -/

structure enrichedPR where
  mergedEpoch : ℤ
  authorLogin : String
  onaInvolved : Bool
deriving DecidableEq

/-- Go's `math.Round`: nearest integer, half away from zero. -/
def goRound (q : ℚ) : ℚ :=
  if q < 0 then -((⌊-q + 1 / 2⌋ : ℤ) : ℚ) else ((⌊q + 1 / 2⌋ : ℤ) : ℚ)

def round2 (q : ℚ) : ℚ := goRound (q * 100) / 100

def round1 (q : ℚ) : ℚ := goRound (q * 10) / 10

/-- Embedding of `countActiveWeeks`: week ranges containing at least one PR
of the group, end-of-day bound `end + 86399` as in the source. -/
def countActiveWeeks (prs : List enrichedPR) (wb : List weekRangeE) : ℕ :=
  if prs = [] then 0
  else (wb.filter (fun w => prs.any (fun pr => inWeek pr.mergedEpoch w))).length

/-- Minimum of a list of epochs, scanned left to right as in the source's
first-Ona search. -/
def minEpoch? (l : List ℤ) : Option ℤ :=
  l.foldl
    (fun acc e =>
      match acc with
      | none => some e
      | some m => if e < m then some e else some m)
    none

/-- Earliest merge epoch among an author's Ona-involved PRs. -/
def firstOnaEpoch? (authorPRs : List enrichedPR) : Option ℤ :=
  minEpoch? ((authorPRs.filter (fun pr => pr.onaInvolved)).map (fun pr => pr.mergedEpoch))

/-- The "Before" group of an author's PRs. -/
def beforeOf (authorPRs : List enrichedPR) : List enrichedPR :=
  match firstOnaEpoch? authorPRs with
  | none => authorPRs
  | some e => authorPRs.filter (fun pr => pr.mergedEpoch < e)

/-- The "After" group of an author's PRs. -/
def afterOf (authorPRs : List enrichedPR) : List enrichedPR :=
  match firstOnaEpoch? authorPRs with
  | none => []
  | some e => authorPRs.filter (fun pr => ¬ pr.mergedEpoch < e)

/-- `Rate(group) = round(|group| / ActiveWeeks(group), 2)`, 0 when
`ActiveWeeks = 0`. -/
def rateOf (g : List enrichedPR) (wb : List weekRangeE) : ℚ :=
  if 0 < countActiveWeeks g wb
  then round2 ((g.length : ℚ) / (countActiveWeeks g wb : ℚ))
  else 0

structure contributorStat where
  login : String
  totalPRs : ℕ
  beforeRate : ℚ
  afterRate : ℚ
  pctChange : ℚ
  hasOnaPRs : Bool
deriving DecidableEq

/-- The per-author body of `computeTopContributors`'s main loop. -/
def perAuthorStat (prs : List enrichedPR) (wb : List weekRangeE) (login : String) :
    contributorStat :=
  let authorPRs := prs.filter (fun pr => pr.authorLogin = login)
  let beforeRate := rateOf (beforeOf authorPRs) wb
  let afterRate := rateOf (afterOf authorPRs) wb
  { login := login
    totalPRs := authorPRs.length
    beforeRate := beforeRate
    afterRate := afterRate
    pctChange :=
      if 0 < beforeRate then round1 ((afterRate - beforeRate) / beforeRate * 100) else 0
    hasOnaPRs := (firstOnaEpoch? authorPRs).isSome }

/-- Distinct author logins in first-occurrence order (Go groups into a map;
the subsequent total-order sort makes the iteration order immaterial). -/
def authorsOf (prs : List enrichedPR) : List String :=
  prs.foldl (fun acc pr => if pr.authorLogin ∈ acc then acc else acc ++ [pr.authorLogin]) []

def authorCount (prs : List enrichedPR) (login : String) : ℕ :=
  (prs.filter (fun pr => pr.authorLogin = login)).length

/-- The ranking comparator: PR count descending, login ascending on ties. -/
def rankBefore (prs : List enrichedPR) (a b : String) : Prop :=
  authorCount prs b < authorCount prs a ∨
    (authorCount prs a = authorCount prs b ∧ a < b)

instance (prs : List enrichedPR) (a b : String) : Decidable (rankBefore prs a b) := by
  unfold rankBefore
  infer_instance

/-- Embedding of `computeTopContributors`: rank authors by total PR count
descending with ascending-login tie-break, take the top `n`, and compute each
author's before/after stats. -/
def computeTopContributors (prs : List enrichedPR) (weekRanges : List weekRangeE)
    (n : ℕ) : List contributorStat :=
  if prs = [] ∨ n = 0 then []
  else
    let ranked := (authorsOf prs).insertionSort (rankBefore prs)
    (ranked.take n).map (perAuthorStat prs weekRanges)

theorem minEpoch?_go : ∀ (l : List ℤ) (m : ℤ),
    ∃ r, (l.foldl
        (fun acc e =>
          match acc with
          | none => some e
          | some m2 => if e < m2 then some e else some m2)
        (some m)) = some r ∧
      r ≤ m ∧ (r = m ∨ r ∈ l) ∧ ∀ x ∈ l, r ≤ x := by
  intro l
  induction l with
  | nil => intro m; exact ⟨m, rfl, le_refl _, Or.inl rfl, by intro x hx; cases hx⟩
  | cons e t ih =>
    intro m
    simp only [List.foldl_cons]
    by_cases he : e < m
    · rw [if_pos he]
      obtain ⟨r, hr, hrle, hrmem, hrall⟩ := ih e
      refine ⟨r, hr, le_trans hrle (le_of_lt he), ?_, ?_⟩
      · rcases hrmem with rfl | h
        · exact Or.inr (List.mem_cons_self _ _)
        · exact Or.inr (List.mem_cons_of_mem _ h)
      · intro x hx
        rcases List.mem_cons.mp hx with rfl | h
        · exact hrle
        · exact hrall x h
    · rw [if_neg he]
      obtain ⟨r, hr, hrle, hrmem, hrall⟩ := ih m
      refine ⟨r, hr, hrle, ?_, ?_⟩
      · rcases hrmem with rfl | h
        · exact Or.inl rfl
        · exact Or.inr (List.mem_cons_of_mem _ h)
      · intro x hx
        rcases List.mem_cons.mp hx with rfl | h
        · exact le_trans hrle (not_lt.mp he)
        · exact hrall x h

theorem minEpoch?_eq_none_iff {l : List ℤ} : minEpoch? l = none ↔ l = [] := by
  cases l with
  | nil => simp [minEpoch?]
  | cons e t =>
    simp only [minEpoch?, List.foldl_cons]
    obtain ⟨r, hr, -, -, -⟩ := minEpoch?_go t e
    rw [hr]
    simp

theorem minEpoch?_spec {l : List ℤ} {r : ℤ} (h : minEpoch? l = some r) :
    r ∈ l ∧ ∀ x ∈ l, r ≤ x := by
  cases l with
  | nil => simp [minEpoch?] at h
  | cons e t =>
    simp only [minEpoch?, List.foldl_cons] at h
    obtain ⟨r2, hr2, hle, hmem, hall⟩ := minEpoch?_go t e
    rw [hr2] at h
    injection h with h
    subst h
    constructor
    · rcases hmem with rfl | hm
      · exact List.mem_cons_self _ _
      · exact List.mem_cons_of_mem _ hm
    · intro x hx
      rcases List.mem_cons.mp hx with rfl | hm
      · exact hle
      · exact hall x hm

theorem firstOnaEpoch?_none {A : List enrichedPR} (h : firstOnaEpoch? A = none) :
    ∀ pr ∈ A, pr.onaInvolved = false := by
  rw [firstOnaEpoch?, minEpoch?_eq_none_iff, List.map_eq_nil_iff] at h
  intro pr hpr
  by_contra hona
  have : pr ∈ A.filter (fun pr => pr.onaInvolved) :=
    List.mem_filter.mpr ⟨hpr, by simpa using Bool.of_not_eq_false hona⟩
  rw [h] at this
  cases this

theorem firstOnaEpoch?_some {A : List enrichedPR} {e : ℤ}
    (h : firstOnaEpoch? A = some e) :
    (∃ pr ∈ A, pr.onaInvolved = true ∧ pr.mergedEpoch = e) ∧
      ∀ pr ∈ A, pr.onaInvolved = true → e ≤ pr.mergedEpoch := by
  rw [firstOnaEpoch?] at h
  obtain ⟨hmem, hall⟩ := minEpoch?_spec h
  constructor
  · obtain ⟨pr, hpr, hpre⟩ := List.mem_map.mp hmem
    have h2 := List.mem_filter.mp hpr
    exact ⟨pr, h2.1, by simpa using h2.2, hpre⟩
  · intro pr hpr hona
    exact hall pr.mergedEpoch
      (List.mem_map_of_mem _ (List.mem_filter.mpr ⟨hpr, by simpa using hona⟩))

theorem before_after_partition (A : List enrichedPR) :
    (beforeOf A ++ afterOf A).Perm A := by
  rw [beforeOf, afterOf]
  cases h : firstOnaEpoch? A with
  | none => simp
  | some e =>
    dsimp only
    have hneg : (fun pr : enrichedPR => decide (¬ pr.mergedEpoch < e)) =
        fun pr : enrichedPR => !(decide (pr.mergedEpoch < e)) := by
      funext pr
      exact decide_not
    rw [hneg]
    exact List.filter_append_perm _ A

/-- C9: every stat emitted by `computeTopContributors` is the per-author
computation for its login: the author's PRs are partitioned at the earliest
merge epoch among their Ona-involved PRs (all Before and After empty when no
such PR exists), each group's rate is `round(|group|/ActiveWeeks(group), 2)`
with 0 when `ActiveWeeks = 0`, and `pctChange` is
`round((after−before)/before·100, 1)` when the before rate is positive,
else 0. -/
theorem computeTopContributors_spec (prs : List enrichedPR)
    (wrs : List weekRangeE) (n : ℕ) :
    ∀ s ∈ computeTopContributors prs wrs n,
      s = perAuthorStat prs wrs s.login ∧
      (∀ e, firstOnaEpoch? (prs.filter (fun pr => pr.authorLogin = s.login)) = some e →
        (∃ pr ∈ prs.filter (fun pr => pr.authorLogin = s.login),
            pr.onaInvolved = true ∧ pr.mergedEpoch = e) ∧
        (∀ pr ∈ prs.filter (fun pr => pr.authorLogin = s.login),
            pr.onaInvolved = true → e ≤ pr.mergedEpoch) ∧
        beforeOf (prs.filter (fun pr => pr.authorLogin = s.login)) =
          (prs.filter (fun pr => pr.authorLogin = s.login)).filter
            (fun pr => pr.mergedEpoch < e) ∧
        afterOf (prs.filter (fun pr => pr.authorLogin = s.login)) =
          (prs.filter (fun pr => pr.authorLogin = s.login)).filter
            (fun pr => ¬ pr.mergedEpoch < e)) ∧
      (firstOnaEpoch? (prs.filter (fun pr => pr.authorLogin = s.login)) = none →
        (∀ pr ∈ prs.filter (fun pr => pr.authorLogin = s.login),
            pr.onaInvolved = false) ∧
        beforeOf (prs.filter (fun pr => pr.authorLogin = s.login)) =
          prs.filter (fun pr => pr.authorLogin = s.login) ∧
        afterOf (prs.filter (fun pr => pr.authorLogin = s.login)) = []) ∧
      (beforeOf (prs.filter (fun pr => pr.authorLogin = s.login)) ++
          afterOf (prs.filter (fun pr => pr.authorLogin = s.login))).Perm
        (prs.filter (fun pr => pr.authorLogin = s.login)) ∧
      s.beforeRate = rateOf (beforeOf (prs.filter (fun pr => pr.authorLogin = s.login))) wrs ∧
      s.afterRate = rateOf (afterOf (prs.filter (fun pr => pr.authorLogin = s.login))) wrs ∧
      s.pctChange = (if 0 < s.beforeRate
        then round1 ((s.afterRate - s.beforeRate) / s.beforeRate * 100) else 0) ∧
      s.totalPRs = (prs.filter (fun pr => pr.authorLogin = s.login)).length ∧
      s.hasOnaPRs = (firstOnaEpoch? (prs.filter (fun pr => pr.authorLogin = s.login))).isSome := by
  intro s hs
  rw [computeTopContributors] at hs
  split_ifs at hs with hguard
  · cases hs
  · obtain ⟨login, hlogin, rfl⟩ := List.mem_map.mp hs
    have hlg : (perAuthorStat prs wrs login).login = login := rfl
    rw [hlg]
    refine ⟨rfl, ?_, ?_, before_after_partition _, rfl, rfl, rfl, rfl, rfl⟩
    · intro e he
      obtain ⟨hex, hmin⟩ := firstOnaEpoch?_some he
      exact ⟨hex, hmin, by rw [beforeOf, he], by rw [afterOf, he]⟩
    · intro he
      exact ⟨firstOnaEpoch?_none he, by rw [beforeOf, he], by rw [afterOf, he]⟩

/-- C9 (witness): the per-author facts at a concrete ranked author. -/
theorem computeTopContributors_spec_witness :
    (perAuthorStat [⟨100, "alice", false⟩, ⟨700000, "alice", true⟩] [⟨0, 518400⟩]
        "alice").pctChange =
      (if 0 < (perAuthorStat [⟨100, "alice", false⟩, ⟨700000, "alice", true⟩]
          [⟨0, 518400⟩] "alice").beforeRate
        then round1 (((perAuthorStat [⟨100, "alice", false⟩, ⟨700000, "alice", true⟩]
            [⟨0, 518400⟩] "alice").afterRate -
          (perAuthorStat [⟨100, "alice", false⟩, ⟨700000, "alice", true⟩]
            [⟨0, 518400⟩] "alice").beforeRate) /
          (perAuthorStat [⟨100, "alice", false⟩, ⟨700000, "alice", true⟩]
            [⟨0, 518400⟩] "alice").beforeRate * 100)
        else 0) := by
  have hmem : perAuthorStat [⟨100, "alice", false⟩, ⟨700000, "alice", true⟩]
      [⟨0, 518400⟩] "alice" ∈
      computeTopContributors [⟨100, "alice", false⟩, ⟨700000, "alice", true⟩]
        [⟨0, 518400⟩] 1 := by
    rw [computeTopContributors]
    rw [if_neg (by simp)]
    refine List.mem_map.mpr ⟨"alice", ?_, rfl⟩
    simp [authorsOf, List.insertionSort]
  have h := computeTopContributors_spec
    [⟨100, "alice", false⟩, ⟨700000, "alice", true⟩] [⟨0, 518400⟩] 1 _ hmem
  exact h.2.2.2.2.2.2.1

/-! ### Distribution functions (stats.go lines 343-441, part_007 lines 845-931)

`math.Erfc` is modelled by the mathematical complementary error function as a
Gaussian integral; `math.Exp`, `math.Log` and `math.Lgamma` by `Real.exp`,
`Real.log` and `log |Γ|`. The float literals `1e-30` and `1e-14` are the
exact rationals `10⁻³⁰` and `10⁻¹⁴`. -/

/-- Mathematical model of `math.Erfc`. -/
noncomputable def erfc (z : ℝ) : ℝ :=
  2 / Real.sqrt Real.pi * ∫ t in Set.Ioi z, Real.exp (-t ^ 2)

/-- Embedding of `normalCDF`: `0.5 * erfc(-x/√2)`. -/
noncomputable def normalCDF (x : ℝ) : ℝ := 0.5 * erfc (-x / Real.sqrt 2)

/-- Embedding of `lnBeta` via `math.Lgamma = log |Γ|`. -/
noncomputable def lnBetaR (a b : ℝ) : ℝ :=
  Real.log |Real.Gamma a| + Real.log |Real.Gamma b| - Real.log |Real.Gamma (a + b)|

noncomputable def tinyR : ℝ := 1 / 10 ^ 30

noncomputable def epsR : ℝ := 1 / 10 ^ 14

/-- The log prefix `a·ln x + b·ln(1−x) − ln a − lnB(a,b)` of `regIncBeta`. -/
noncomputable def lnPref (a b x : ℝ) : ℝ :=
  a * Real.log x + b * Real.log (1 - x) - Real.log a - lnBetaR a b

/-- The continued-fraction coefficient `an` of iteration `i` in `regIncBeta`. -/
noncomputable def lentzA (a b x : ℝ) (i : ℕ) : ℝ :=
  if i = 0 then 1
  else if i % 2 = 0 then
    (((i : ℝ) / 2) * (b - (i : ℝ) / 2) * x) /
      ((a + 2 * ((i : ℝ) / 2) - 1) * (a + 2 * ((i : ℝ) / 2)))
  else
    -((a + ((i : ℝ) - 1) / 2) * (a + b + ((i : ℝ) - 1) / 2) * x) /
      ((a + 2 * (((i : ℝ) - 1) / 2)) * (a + 2 * (((i : ℝ) - 1) / 2) + 1))

structure LentzState where
  f : ℝ
  c : ℝ
  d : ℝ

/-- One iteration of Lentz's method with the `1e-30` floor on both the
`d` and `c` updates. -/
noncomputable def lentzStep (an : ℝ) (s : LentzState) : LentzState :=
  let d1 := 1 + an * s.d
  let d2 := if |d1| < tinyR then tinyR else d1
  let d3 := 1 / d2
  let c1 := 1 + an / s.c
  let c2 := if |c1| < tinyR then tinyR else c1
  ⟨s.f * (c2 * d3), c2, d3⟩

/-- The Lentz loop with the remaining iteration budget; returns the final
state and the number of iterations performed (the convergence break stops
early). -/
noncomputable def lentzLoop (a b x : ℝ) : ℕ → ℕ → LentzState → LentzState × ℕ
  | _, 0, s => (s, 0)
  | i, rem + 1, s =>
    let s2 := lentzStep (lentzA a b x i) s
    if |s2.c * s2.d - 1| < epsR then (s2, 1)
    else
      let r := lentzLoop a b x (i + 1) rem s2
      (r.1, r.2 + 1)

/-- The full Lentz run of `regIncBeta`: iterations `i = 0..200`, initial
state `f = c = tiny`, `d = 0`. -/
noncomputable def lentzRun (a b x : ℝ) : LentzState × ℕ :=
  lentzLoop a b x 0 201 ⟨tinyR, tinyR, 0⟩

/-- The non-recursive core of `regIncBeta`: `exp(lnPrefix) * f`. -/
noncomputable def regIncBetaCore (a b x : ℝ) : ℝ :=
  Real.exp ( lnPref a b x) * (lentzRun a b x).1.f

/-- `regIncBeta` with an explicit recursion budget for the symmetry
relation (the source recursion is unbounded in the text but, as proved
below, never nests more than once). -/
noncomputable def regIncBetaF : ℕ → ℝ → ℝ → ℝ → ℝ
  | 0, _, _, _ => 0
  | fuel + 1, a, b, x =>
    if x < 0 ∨ 1 < x then 0
    else if x = 0 then 0
    else if x = 1 then 1
    else if (a + 1) / (a + b + 2) < x then 1 - regIncBetaF fuel b a (1 - x)
    else regIncBetaCore a b x

/-- Embedding of `regIncBeta` (budget 2 suffices; see
`regIncBeta_total_spec`). -/
noncomputable def regIncBeta (a b x : ℝ) : ℝ := regIncBetaF 2 a b x

/-- Division that fails on a zero divisor, to witness freedom from division
by zero. -/
noncomputable def divR? (x y : ℝ) : Option ℝ := if y = 0 then none else some (x / y)

/-- `lentzStep` with checked divisions. -/
noncomputable def lentzStepChecked (an : ℝ) (s : LentzState) : Option LentzState :=
  let d1 := 1 + an * s.d
  let d2 := if |d1| < tinyR then tinyR else d1
  match divR? 1 d2 with
  | none => none
  | some d3 =>
    match divR? an s.c with
    | none => none
    | some q =>
      let c1 := 1 + q
      let c2 := if |c1| < tinyR then tinyR else c1
      some ⟨s.f * (c2 * d3), c2, d3⟩

noncomputable def lentzLoopChecked (a b x : ℝ) : ℕ → ℕ → LentzState → Option LentzState
  | _, 0, s => some s
  | i, rem + 1, s =>
    match lentzStepChecked (lentzA a b x i) s with
    | none => none
    | some s2 =>
      if |s2.c * s2.d - 1| < epsR then some s2
      else lentzLoopChecked a b x (i + 1) rem s2

noncomputable def lentzRunChecked (a b x : ℝ) : Option LentzState :=
  lentzLoopChecked a b x 0 201 ⟨tinyR, tinyR, 0⟩

/-- Embedding of `tDistCDF`. -/
noncomputable def tDistCDF (t df : ℝ) : ℝ :=
  if df ≤ 0 then 0.5
  else
    if 0 ≤ t then 1 - 0.5 * regIncBeta (df / 2) 0.5 (df / (df + t * t))
    else 0.5 * regIncBeta (df / 2) 0.5 (df / (df + t * t))

theorem tinyR_pos : 0 < tinyR := by norm_num [tinyR]

theorem floor_tinyR_ne (v : ℝ) : (if |v| < tinyR then tinyR else v) ≠ 0 := by
  split_ifs with h
  · exact ne_of_gt tinyR_pos
  · intro hv
    rw [hv] at h
    exact h (by simpa using tinyR_pos)

theorem lentzStep_c_ne (an : ℝ) (s : LentzState) : (lentzStep an s).c ≠ 0 := by
  unfold lentzStep
  exact floor_tinyR_ne _

theorem lentzStepChecked_eq (an : ℝ) (s : LentzState) (hc : s.c ≠ 0) :
    lentzStepChecked an s = some (lentzStep an s) := by
  unfold lentzStepChecked lentzStep
  dsimp only
  rw [divR?, if_neg (floor_tinyR_ne _), divR?, if_neg hc]

theorem lentzLoopChecked_eq (a b x : ℝ) : ∀ (rem i : ℕ) (s : LentzState),
    s.c ≠ 0 → lentzLoopChecked a b x i rem s = some (lentzLoop a b x i rem s).1 := by
  intro rem
  induction rem with
  | zero => intro i s _; rfl
  | succ r ih =>
    intro i s hc
    show lentzLoopChecked a b x i (r + 1) s = some (lentzLoop a b x i (r + 1) s).1
    rw [lentzLoopChecked, lentzLoop]
    rw [lentzStepChecked_eq _ _ hc]
    dsimp only
    split_ifs with hbrk
    · rfl
    · exact ih (i + 1) _ (lentzStep_c_ne _ _)

theorem lentzLoop_count (a b x : ℝ) : ∀ (rem i : ℕ) (s : LentzState),
    (lentzLoop a b x i rem s).2 ≤ rem := by
  intro rem
  induction rem with
  | zero => intro i s; exact le_refl _
  | succ r ih =>
    intro i s
    rw [lentzLoop]
    dsimp only
    split_ifs with hbrk
    · simp
    · have := ih (i + 1) (lentzStep (lentzA a b x i) s)
      simpa using Nat.succ_le_succ this

theorem regIncBetaF_succ (fuel : ℕ) (a b x : ℝ) :
    regIncBetaF (fuel + 1) a b x =
      if x < 0 ∨ 1 < x then 0
      else if x = 0 then 0
      else if x = 1 then 1
      else if (a + 1) / (a + b + 2) < x then 1 - regIncBetaF fuel b a (1 - x)
      else regIncBetaCore a b x := rfl

/-- After one application of the symmetry relation, its condition cannot
hold again. -/
theorem symmetry_once {a b x : ℝ} (hab : 0 < a + b + 2)
    (hc : (a + 1) / (a + b + 2) < x) : ¬ (b + 1) / (b + a + 2) < 1 - x := by
  rw [not_lt]
  have hab2 : 0 < b + a + 2 := by linarith
  rw [div_lt_iff₀ hab] at hc
  rw [le_div_iff₀ hab2]
  nlinarith

/-- A recursion budget of 2 computes `regIncBeta` exactly: the symmetry
relation is applied at most once. -/
theorem regIncBetaF_fuel_ge_two (a b x : ℝ) (hab : 0 < a + b + 2) (n : ℕ) :
    regIncBetaF (n + 2) a b x = regIncBetaF 2 a b x := by
  rw [show n + 2 = (n + 1) + 1 from rfl, regIncBetaF_succ (n + 1),
    show (2 : ℕ) = 1 + 1 from rfl, regIncBetaF_succ 1]
  by_cases h1 : x < 0 ∨ 1 < x
  · rw [if_pos h1, if_pos h1]
  rw [if_neg h1, if_neg h1]
  by_cases h2 : x = 0
  · rw [if_pos h2, if_pos h2]
  rw [if_neg h2, if_neg h2]
  by_cases h3 : x = 1
  · rw [if_pos h3, if_pos h3]
  rw [if_neg h3, if_neg h3]
  by_cases h4 : (a + 1) / (a + b + 2) < x
  · rw [if_pos h4, if_pos h4]
    push_neg at h1
    have hx0 : 0 < x := lt_of_le_of_ne h1.1 (Ne.symm h2)
    have hx1 : x < 1 := lt_of_le_of_ne h1.2 h3
    have hnc : ¬ (b + 1) / (b + a + 2) < 1 - x := symmetry_once hab h4
    have hinner : ∀ m : ℕ, regIncBetaF (m + 1) b a (1 - x) = regIncBetaCore b a (1 - x) := by
      intro m
      rw [regIncBetaF_succ m]
      rw [if_neg (by push_neg; constructor <;> linarith),
        if_neg (by intro h; exact h3 (by linarith)),
        if_neg (by intro h; exact h2 (by linarith)),
        if_neg hnc]
    rw [hinner n, hinner 0]
  · rw [if_neg h4, if_neg h4]

/-- C1: `regIncBeta` is total: exact 0 at `x = 0` and outside `[0,1]`, exact
1 at `x = 1`; the symmetry relation never nests (a recursion budget of 2 is
exact); the Lentz loop performs at most 201 iterations; the `1e-30` floor
keeps every divisor of the loop nonzero (the checked-division loop never
fails); and the core always returns `exp(lnPrefix)·f`, its current partial
estimate, whether or not the `1e-14` tolerance was met. -/
theorem regIncBeta_total_spec (a b x : ℝ) (n : ℕ) (ha : 0 < a) (hb : 0 < b) :
    regIncBeta a b 0 = 0 ∧
    regIncBeta a b 1 = 1 ∧
    (x < 0 ∨ 1 < x → regIncBeta a b x = 0) ∧
    regIncBetaF (n + 2) a b x = regIncBeta a b x ∧
    (lentzRun a b x).2 ≤ 201 ∧
    lentzRunChecked a b x = some (lentzRun a b x).1 ∧
    regIncBetaCore a b x = Real.exp ( lnPref a b x) * (lentzRun a b x).1.f := by
  refine ⟨?_, ?_, ?_, ?_, ?_, ?_, rfl⟩
  · rw [regIncBeta, show (2 : ℕ) = 1 + 1 from rfl, regIncBetaF_succ]
    norm_num
  · rw [regIncBeta, show (2 : ℕ) = 1 + 1 from rfl, regIncBetaF_succ]
    norm_num
  · intro h
    rw [regIncBeta, show (2 : ℕ) = 1 + 1 from rfl, regIncBetaF_succ, if_pos h]
  · exact regIncBetaF_fuel_ge_two a b x (by linarith) n
  · exact lentzLoop_count a b x 201 0 _
  · exact lentzLoopChecked_eq a b x 201 0 _ (ne_of_gt tinyR_pos)

/-- C1 (witness): totality facts at `a = b = 1`, `x = 3/7`. -/
theorem regIncBeta_total_spec_witness :
    regIncBeta 1 1 0 = 0 ∧ regIncBeta 1 1 1 = 1 ∧ (lentzRun 1 1 (3 / 7)).2 ≤ 201 :=
  ⟨(regIncBeta_total_spec 1 1 (3 / 7) 5 zero_lt_one zero_lt_one).1,
    (regIncBeta_total_spec 1 1 (3 / 7) 5 zero_lt_one zero_lt_one).2.1,
    (regIncBeta_total_spec 1 1 (3 / 7) 5 zero_lt_one zero_lt_one).2.2.2.2.1⟩

theorem regIncBeta_one (a b : ℝ) : regIncBeta a b 1 = 1 := by
  rw [regIncBeta, show (2 : ℕ) = 1 + 1 from rfl, regIncBetaF_succ]
  norm_num

/-- Both tails of `tDistCDF` evaluate the same regularized incomplete beta
value and return complementary halves, so they sum to 1; at `t = 0` the
`x = 1` endpoint forces the value `0.5`. -/
theorem tDistCDF_add_neg (t df : ℝ) (hdf : 0 < df) :
    tDistCDF t df + tDistCDF (-t) df = 1 := by
  have hdfn : ¬ df ≤ 0 := not_le.mpr hdf
  rw [tDistCDF, tDistCDF, if_neg hdfn, if_neg hdfn]
  have hx : df / (df + -t * -t) = df / (df + t * t) := by ring_nf
  rcases lt_trichotomy t 0 with hlt | heq | hgt
  · rw [if_neg (not_le.mpr hlt), if_pos (by linarith : (0 : ℝ) ≤ -t), hx]
    ring
  · subst heq
    rw [if_pos (le_refl 0), if_pos (by norm_num : (0 : ℝ) ≤ -0)]
    rw [show df + -(0 : ℝ) * -0 = df by ring, show df + (0 : ℝ) * 0 = df by ring,
      div_self (ne_of_gt hdf), regIncBeta_one]
    norm_num
  · rw [if_pos (le_of_lt hgt), if_neg (not_le.mpr (by linarith : -t < 0)), hx]
    ring

/-! ### Pearson correlation (stats.go lines 227-274, part_007 lines 744-784) -/

def divQ? (a b : ℚ) : Option ℚ := if b = 0 then none else some (a / b)

/-- Sum of the first `n` positions of a list, as the Go index loops do. -/
def sumIdx (n : ℕ) (l : List ℚ) : ℚ := ((List.range n).map (fun i => l.getD i 0)).sum

def pearsonMeanX (x : List ℚ) : ℚ := sumIdx x.length x / (x.length : ℚ)

def pearsonMeanY (x y : List ℚ) : ℚ := sumIdx x.length y / (x.length : ℚ)

def pearsonCov (x y : List ℚ) : ℚ :=
  ((List.range x.length).map (fun i =>
    (x.getD i 0 - pearsonMeanX x) * (y.getD i 0 - pearsonMeanY x y))).sum

def pearsonVarX (x : List ℚ) : ℚ :=
  ((List.range x.length).map (fun i =>
    (x.getD i 0 - pearsonMeanX x) * (x.getD i 0 - pearsonMeanX x))).sum

def pearsonVarY (x y : List ℚ) : ℚ :=
  ((List.range x.length).map (fun i =>
    (y.getD i 0 - pearsonMeanY x y) * (y.getD i 0 - pearsonMeanY x y))).sum

/-- Embedding of `pearsonCorrelation`: sample values are exact rationals, the
irrational steps (square roots, the t CDF) are real. -/
noncomputable def pearsonCorrelation (x y : List ℚ) : ℝ × ℝ :=
  if x.length < 3 then (0, 1)
  else if pearsonVarX x = 0 ∨ pearsonVarY x y = 0 then (0, 1)
  else
    let r0 : ℝ := ((pearsonCov x y : ℚ) : ℝ) /
      Real.sqrt (((pearsonVarX x * pearsonVarY x y : ℚ) : ℝ))
    let r : ℝ := if 1 < r0 then 1 else if r0 < -1 then -1 else r0
    let t : ℝ := r * Real.sqrt (((x.length : ℝ) - 2) / (1 - r * r))
    (r, 2 * tDistCDF (-|t|) ((x.length : ℝ) - 2))

/-- `pearsonCorrelation` with every rational division checked. -/
noncomputable def pearsonChecked (x y : List ℚ) : Option (ℝ × ℝ) :=
  if x.length < 3 then some (0, 1)
  else
    match divQ? (sumIdx x.length x) (x.length : ℚ) with
    | none => none
    | some mx =>
      match divQ? (sumIdx x.length y) (x.length : ℚ) with
      | none => none
      | some my =>
        if ((List.range x.length).map (fun i =>
              (x.getD i 0 - mx) * (x.getD i 0 - mx))).sum = 0 ∨
            ((List.range x.length).map (fun i =>
              (y.getD i 0 - my) * (y.getD i 0 - my))).sum = 0
        then some (0, 1)
        else
          let cov := ((List.range x.length).map (fun i =>
            (x.getD i 0 - mx) * (y.getD i 0 - my))).sum
          let r0 : ℝ := ((cov : ℚ) : ℝ) /
            Real.sqrt (((((List.range x.length).map (fun i =>
                (x.getD i 0 - mx) * (x.getD i 0 - mx))).sum *
              ((List.range x.length).map (fun i =>
                (y.getD i 0 - my) * (y.getD i 0 - my))).sum : ℚ) : ℝ))
          let r : ℝ := if 1 < r0 then 1 else if r0 < -1 then -1 else r0
          let t : ℝ := r * Real.sqrt (((x.length : ℝ) - 2) / (1 - r * r))
          some (r, 2 * tDistCDF (-|t|) ((x.length : ℝ) - 2))

/-- C4: `pearsonCorrelation` returns exactly `(0, 1)` when `n < 3` or either
sample variance vanishes, dividing by zero nowhere on those paths (the
checked-division variant succeeds), and otherwise returns the clamped
`cov/√(varX·varY)` with the two-tailed Student-t p-value. -/
theorem pearson_degenerate (x y : List ℚ) :
    ((x.length < 3 ∨ pearsonVarX x = 0 ∨ pearsonVarY x y = 0) →
      pearsonCorrelation x y = (0, 1) ∧ pearsonChecked x y = some (0, 1)) ∧
    (3 ≤ x.length → pearsonVarX x ≠ 0 → pearsonVarY x y ≠ 0 →
      pearsonCorrelation x y =
        (let r0 : ℝ := ((pearsonCov x y : ℚ) : ℝ) /
            Real.sqrt (((pearsonVarX x * pearsonVarY x y : ℚ) : ℝ));
         let r : ℝ := if 1 < r0 then 1 else if r0 < -1 then -1 else r0;
         let t : ℝ := r * Real.sqrt (((x.length : ℝ) - 2) / (1 - r * r));
         (r, 2 * tDistCDF (-|t|) ((x.length : ℝ) - 2)))) := by
  constructor
  · intro h
    by_cases h3 : x.length < 3
    · rw [pearsonCorrelation, if_pos h3, pearsonChecked, if_pos h3]
      exact ⟨rfl, rfl⟩
    · have hvar : pearsonVarX x = 0 ∨ pearsonVarY x y = 0 := by
        rcases h with h | h
        · exact absurd h h3
        · exact h
      have hlen : (x.length : ℚ) ≠ 0 := by
        have h4 : 3 ≤ x.length := not_lt.mp h3
        exact Nat.cast_ne_zero.mpr (by omega)
      constructor
      · rw [pearsonCorrelation, if_neg h3, if_pos hvar]
      · rw [pearsonChecked, if_neg h3]
        rw [divQ?, if_neg hlen, divQ?, if_neg hlen]
        dsimp only
        rw [if_pos (by
          unfold pearsonVarX pearsonVarY pearsonMeanX pearsonMeanY at hvar
          exact hvar)]
  · intro h3 hvx hvy
    rw [pearsonCorrelation, if_neg (not_lt.mpr h3),
      if_neg (by
        intro hcon
        rcases hcon with hcon | hcon
        · exact hvx hcon
        · exact hvy hcon)]

/-- C4 (witness): zero variance at a concrete input. -/
theorem pearson_degenerate_witness :
    pearsonCorrelation [1, 1, 1] [1, 2, 3] = (0, 1) ∧
    pearsonChecked [1, 1, 1] [1, 2, 3] = some (0, 1) :=
  (pearson_degenerate [1, 1, 1] [1, 2, 3]).1
    (Or.inr (Or.inl (by
      norm_num [pearsonVarX, pearsonMeanX, sumIdx, List.range_succ])))

/-! ### Mann-Whitney U test (stats.go lines 281-341, part_007 lines 790-843) -/

/-- The median of the grouping values, computed on a sorted copy exactly as
the source does before calling `percentile`. -/
def mwMed (groupVals : List ℚ) : ℚ := percentile (sortQ groupVals) 50

/-- Metric values of weeks at or below the grouping median. -/
def mwLow (g m : List ℚ) : List ℚ :=
  ((g.zip m).filter (fun p => ¬ mwMed g < p.1)).map (fun p => p.2)

/-- Metric values of weeks strictly above the grouping median. -/
def mwHigh (g m : List ℚ) : List ℚ :=
  ((g.zip m).filter (fun p => mwMed g < p.1)).map (fun p => p.2)

/-- The U statistic: 1 per (low, high) pair with low < high, 1/2 per tie. -/
def mwU (low high : List ℚ) : ℚ :=
  (low.map (fun v1 =>
    (high.map (fun v2 =>
      if v1 < v2 then (1 : ℚ) else if v1 = v2 then 1 / 2 else 0)).sum)).sum

/-- Embedding of `mannWhitneyU`: the exact parts (U, group sizes, σ²) are
rational, the normal-approximation p-value is real. -/
noncomputable def mannWhitneyU (g m : List ℚ) : ℚ × ℝ × Bool :=
  if g.length < 4 then (0, 1, false)
  else if (mwLow g m).length = 0 ∨ (mwHigh g m).length = 0 then (0, 1, false)
  else
    let u := mwU (mwLow g m) (mwHigh g m)
    let sigmaSq : ℚ :=
      ((mwLow g m).length * (mwHigh g m).length *
        ((mwLow g m).length + (mwHigh g m).length + 1) : ℚ) / 12
    if sigmaSq = 0 then (u, 1, true)
    else
      (u,
        2 * normalCDF (-|((u : ℝ) -
          ((mwLow g m).length * (mwHigh g m).length : ℝ) / 2) /
          Real.sqrt ((sigmaSq : ℝ))|),
        true)

theorem mwU_inner_all_lt (v1 : ℚ) (high : List ℚ) (h : ∀ v2 ∈ high, v1 < v2) :
    (high.map (fun v2 =>
      if v1 < v2 then (1 : ℚ) else if v1 = v2 then 1 / 2 else 0)).sum =
      (high.length : ℚ) := by
  induction high with
  | nil => simp
  | cons a t ih =>
    simp only [List.map_cons, List.sum_cons, List.length_cons]
    rw [if_pos (h a (List.mem_cons_self a t)),
      ih (fun v2 hv2 => h v2 (List.mem_cons_of_mem a hv2))]
    push_cast
    ring

theorem mwU_inner_all_gt (v1 : ℚ) (high : List ℚ) (h : ∀ v2 ∈ high, v2 < v1) :
    (high.map (fun v2 =>
      if v1 < v2 then (1 : ℚ) else if v1 = v2 then 1 / 2 else 0)).sum = 0 := by
  induction high with
  | nil => simp
  | cons a t ih =>
    simp only [List.map_cons, List.sum_cons]
    rw [if_neg (not_lt.mpr (le_of_lt (h a (List.mem_cons_self a t)))),
      if_neg (ne_of_gt (h a (List.mem_cons_self a t))),
      ih (fun v2 hv2 => h v2 (List.mem_cons_of_mem a hv2))]
    ring

theorem mwU_all_lt {low high : List ℚ}
    (h : ∀ v1 ∈ low, ∀ v2 ∈ high, v1 < v2) :
    mwU low high = (low.length * high.length : ℚ) := by
  unfold mwU
  induction low with
  | nil => simp
  | cons a t ih =>
    simp only [List.map_cons, List.sum_cons, List.length_cons]
    rw [mwU_inner_all_lt a high (h a (List.mem_cons_self a t)),
      ih (fun v1 hv1 => h v1 (List.mem_cons_of_mem a hv1))]
    push_cast
    ring

theorem mwU_all_gt {low high : List ℚ}
    (h : ∀ v1 ∈ low, ∀ v2 ∈ high, v2 < v1) :
    mwU low high = 0 := by
  unfold mwU
  induction low with
  | nil => simp
  | cons a t ih =>
    simp only [List.map_cons, List.sum_cons]
    rw [mwU_inner_all_gt a high (h a (List.mem_cons_self a t)),
      ih (fun v1 hv1 => h v1 (List.mem_cons_of_mem a hv1))]
    ring

/-- C2 (amended): on fully separated groups the U statistic is extreme. -/
theorem mannWhitney_separated (g m : List ℚ) (hlen : g.length = m.length)
    (h4 : 4 ≤ g.length) (hlow : mwLow g m ≠ []) (hhigh : mwHigh g m ≠ []) :
    ((∀ v1 ∈ mwLow g m, ∀ v2 ∈ mwHigh g m, v1 < v2) →
      (mannWhitneyU g m).1 = ((mwLow g m).length * (mwHigh g m).length : ℚ)) ∧
    ((∀ v1 ∈ mwLow g m, ∀ v2 ∈ mwHigh g m, v2 < v1) →
      (mannWhitneyU g m).1 = 0) := by
  have hfst : (mannWhitneyU g m).1 = mwU (mwLow g m) (mwHigh g m) := by
    rw [mannWhitneyU, if_neg (not_lt.mpr h4),
      if_neg (by
        push_neg
        exact ⟨fun hz => hlow (List.length_eq_zero.mp hz),
          fun hz => hhigh (List.length_eq_zero.mp hz)⟩)]
    dsimp only
    split_ifs with hs
    · rfl
    · rfl
  constructor
  · intro hsep
    rw [hfst, mwU_all_lt hsep]
  · intro hsep
    rw [hfst, mwU_all_gt hsep]

/-- C2 (witness): separated groups at a concrete input give the extreme U. -/
theorem mannWhitney_separated_witness :
    (mannWhitneyU [0, 0, 0, 10] [1, 1, 1, 5]).1 =
      ((mwLow [0, 0, 0, 10] [1, 1, 1, 5]).length *
        (mwHigh [0, 0, 0, 10] [1, 1, 1, 5]).length : ℚ) := by
  have hmed : mwMed [0, 0, 0, 10] = 0 := by
    norm_num [mwMed, percentile, sortQ, ratTrunc, List.insertionSort,
      List.orderedInsert]
  have hlow : mwLow [0, 0, 0, 10] [1, 1, 1, 5] = [1, 1, 1] := by
    norm_num [mwLow, hmed, List.filter, List.zip, List.zipWith]
  have hhigh : mwHigh [0, 0, 0, 10] [1, 1, 1, 5] = [5] := by
    norm_num [mwHigh, hmed, List.filter, List.zip, List.zipWith]
  exact (mannWhitney_separated [0, 0, 0, 10] [1, 1, 1, 5] (by decide) (by decide)
      (by rw [hlow]; simp) (by rw [hhigh]; simp)).1
    (by
      rw [hlow, hhigh]
      intro v1 hv1 v2 hv2
      simp only [List.mem_cons, List.mem_singleton, List.not_mem_nil, or_false] at hv1 hv2
      rcases hv1 with rfl | rfl | rfl <;> rw [hv2] <;> norm_num)

theorem integrable_gauss : MeasureTheory.Integrable (fun t : ℝ => Real.exp (-t ^ 2)) := by
  have h := integrable_exp_neg_mul_sq (b := 1) one_pos
  simpa using h

theorem exp_neg_two_ge : (1 / 8 : ℝ) ≤ Real.exp (-2) := by
  have he2 : Real.exp 2 ≤ 8 := by
    have h1 : Real.exp 1 < 2.7182818286 := Real.exp_one_lt_d9
    have hsq : Real.exp 2 = Real.exp 1 * Real.exp 1 := by
      rw [← Real.exp_add]
      norm_num
    nlinarith [Real.exp_pos 1]
  have hpos : (0 : ℝ) < Real.exp 2 := Real.exp_pos 2
  rw [Real.exp_neg]
  have hinv := mul_inv_cancel₀ (ne_of_gt hpos)
  nlinarith

theorem sqrt_pi_le_two : Real.sqrt Real.pi ≤ 2 := by
  have h4 : Real.sqrt 4 = 2 := by
    rw [show (4 : ℝ) = 2 ^ 2 by norm_num, Real.sqrt_sq (by norm_num)]
  calc Real.sqrt Real.pi ≤ Real.sqrt 4 :=
        Real.sqrt_le_sqrt (le_of_lt Real.pi_lt_four)
    _ = 2 := h4

/-- A crude but sufficient lower bound for the complementary error function
at `3/√10 ≈ 0.9487`: the Gaussian integral over `(3/√10, √2]` already
exceeds `(√2 − 3/√10)·e⁻² ≥ 0.058`. -/
theorem erfc_three_div_sqrt_ten_ge : (1 / 20 : ℝ) ≤ erfc (3 / Real.sqrt 10) := by
  have h10pos : (0 : ℝ) < Real.sqrt 10 := Real.sqrt_pos.mpr (by norm_num)
  have hcpos : (0 : ℝ) < 3 / Real.sqrt 10 := by positivity
  have h10ge : (3000 / 949 : ℝ) ≤ Real.sqrt 10 := by
    rw [Real.le_sqrt (by norm_num) (by norm_num)]
    norm_num
  have hcle : 3 / Real.sqrt 10 ≤ 949 / 1000 := by
    have h0 : (0 : ℝ) < 3000 / 949 := by norm_num
    have := div_le_div_of_nonneg_left (by norm_num : (0 : ℝ) ≤ 3) h0 h10ge
    calc 3 / Real.sqrt 10 ≤ 3 / (3000 / 949) := this
      _ = 949 / 1000 := by norm_num
  have hs2 : (707 / 500 : ℝ) ≤ Real.sqrt 2 := by
    rw [Real.le_sqrt (by norm_num) (by norm_num)]
    norm_num
  have hcs2 : 3 / Real.sqrt 10 < Real.sqrt 2 := by linarith
  -- Gaussian integral over the window (3/√10, √2]
  have hconst : (Real.sqrt 2 - 3 / Real.sqrt 10) * Real.exp (-2) ≤
      ∫ t in Set.Ioc (3 / Real.sqrt 10) (Real.sqrt 2), Real.exp (-t ^ 2) := by
    have hmeas : MeasurableSet (Set.Ioc (3 / Real.sqrt 10) (Real.sqrt 2)) :=
      measurableSet_Ioc
    have hmono : ∀ t ∈ Set.Ioc (3 / Real.sqrt 10) (Real.sqrt 2),
        Real.exp (-2) ≤ Real.exp (-t ^ 2) := by
      intro t ht
      apply Real.exp_le_exp.mpr
      have htpos : 0 < t := lt_trans hcpos ht.1
      have ht2 : t ^ 2 ≤ Real.sqrt 2 ^ 2 :=
        pow_le_pow_left₀ (le_of_lt htpos) ht.2 2
      rw [Real.sq_sqrt (by norm_num : (0 : ℝ) ≤ 2)] at ht2
      linarith
    have hconstint : ∫ t in Set.Ioc (3 / Real.sqrt 10) (Real.sqrt 2),
        Real.exp (-2) =
        (Real.sqrt 2 - 3 / Real.sqrt 10) * Real.exp (-2) := by
      rw [MeasureTheory.setIntegral_const, Real.volume_Ioc,
        ENNReal.toReal_ofReal (by linarith), smul_eq_mul]
    rw [← hconstint]
    apply MeasureTheory.setIntegral_mono_on
    · exact MeasureTheory.integrableOn_const.mpr
        (Or.inr (by rw [Real.volume_Ioc]; exact ENNReal.ofReal_lt_top))
    · exact integrable_gauss.integrableOn
    · exact hmeas
    · exact hmono
  have hsub : ∫ t in Set.Ioc (3 / Real.sqrt 10) (Real.sqrt 2), Real.exp (-t ^ 2) ≤
      ∫ t in Set.Ioi (3 / Real.sqrt 10), Real.exp (-t ^ 2) := by
    apply MeasureTheory.setIntegral_mono_set integrable_gauss.integrableOn
    · exact Filter.Eventually.of_forall (fun t => (Real.exp_pos _).le)
    · exact Filter.Eventually.of_forall Set.Ioc_subset_Ioi_self
  have hint_ge : (93 / 1600 : ℝ) ≤
      ∫ t in Set.Ioi (3 / Real.sqrt 10), Real.exp (-t ^ 2) := by
    have hwidth : (93 / 200 : ℝ) ≤ Real.sqrt 2 - 3 / Real.sqrt 10 := by linarith
    have h1 : (93 / 200 : ℝ) * (1 / 8) ≤
        (Real.sqrt 2 - 3 / Real.sqrt 10) * Real.exp (-2) := by
      apply mul_le_mul hwidth exp_neg_two_ge (by norm_num) (by linarith)
    calc (93 / 1600 : ℝ) = 93 / 200 * (1 / 8) := by norm_num
      _ ≤ (Real.sqrt 2 - 3 / Real.sqrt 10) * Real.exp (-2) := h1
      _ ≤ ∫ t in Set.Ioc (3 / Real.sqrt 10) (Real.sqrt 2), Real.exp (-t ^ 2) := hconst
      _ ≤ ∫ t in Set.Ioi (3 / Real.sqrt 10), Real.exp (-t ^ 2) := hsub
  have hpi_pos : (0 : ℝ) < Real.sqrt Real.pi := Real.sqrt_pos.mpr Real.pi_pos
  have hcoef : (1 : ℝ) ≤ 2 / Real.sqrt Real.pi := by
    rw [le_div_iff₀ hpi_pos, one_mul]
    exact sqrt_pi_le_two
  rw [erfc]
  calc (1 / 20 : ℝ) ≤ 1 * (93 / 1600) := by norm_num
    _ ≤ (2 / Real.sqrt Real.pi) *
        ∫ t in Set.Ioi (3 / Real.sqrt 10), Real.exp (-t ^ 2) :=
      mul_le_mul hcoef hint_ge (by norm_num) (by positivity)

/-- C2 (counterexample): a fully separated median split of size 4 (groups of
sizes 3 and 1) has its U statistic at the extreme 0, yet the normal
approximation gives `p = erfc(3/√10) ≈ 0.18`, not below 0.05. -/
theorem mannWhitney_p_not_small :
    ([0, 0, 0, 10] : List ℚ).length = ([5, 5, 5, 1] : List ℚ).length ∧
    4 ≤ ([0, 0, 0, 10] : List ℚ).length ∧
    mwLow [0, 0, 0, 10] [5, 5, 5, 1] = [5, 5, 5] ∧
    mwHigh [0, 0, 0, 10] [5, 5, 5, 1] = [1] ∧
    (∀ v1 ∈ mwLow [0, 0, 0, 10] [5, 5, 5, 1],
      ∀ v2 ∈ mwHigh [0, 0, 0, 10] [5, 5, 5, 1], v2 < v1) ∧
    (mannWhitneyU [0, 0, 0, 10] [5, 5, 5, 1]).1 = 0 ∧
    ¬ (mannWhitneyU [0, 0, 0, 10] [5, 5, 5, 1]).2.1 < 1 / 20 := by
  have hmed : mwMed [0, 0, 0, 10] = 0 := by
    norm_num [mwMed, percentile, sortQ, ratTrunc, List.insertionSort,
      List.orderedInsert]
  have hlow : mwLow [0, 0, 0, 10] [5, 5, 5, 1] = [5, 5, 5] := by
    norm_num [mwLow, hmed, List.filter, List.zip, List.zipWith]
  have hhigh : mwHigh [0, 0, 0, 10] [5, 5, 5, 1] = [1] := by
    norm_num [mwHigh, hmed, List.filter, List.zip, List.zipWith]
  have hu : mwU [5, 5, 5] [1] = 0 := by norm_num [mwU]
  have hlen4 : ¬ ([0, 0, 0, 10] : List ℚ).length < 4 := by norm_num
  have hgroups : ¬ ((mwLow [0, 0, 0, 10] [5, 5, 5, 1]).length = 0 ∨
      (mwHigh [0, 0, 0, 10] [5, 5, 5, 1]).length = 0) := by
    rw [hlow, hhigh]
    norm_num
  have h5pos : (0 : ℝ) < Real.sqrt 5 := Real.sqrt_pos.mpr (by norm_num)
  have h54 : Real.sqrt ((5 / 4 : ℝ)) = Real.sqrt 5 / 2 := by
    rw [show (5 / 4 : ℝ) = 5 / 2 ^ 2 by norm_num,
      Real.sqrt_div (by norm_num : (0 : ℝ) ≤ 5),
      Real.sqrt_sq (by norm_num : (0 : ℝ) ≤ 2)]
  have hsplit : (3 / Real.sqrt 5) / Real.sqrt 2 = 3 / Real.sqrt 10 := by
    rw [div_div, ← Real.sqrt_mul (by norm_num : (0 : ℝ) ≤ 5)]
    norm_num
  have hmain : (mannWhitneyU [0, 0, 0, 10] [5, 5, 5, 1]).2.1 =
      erfc (3 / Real.sqrt 10) := by
    rw [mannWhitneyU, if_neg hlen4, if_neg hgroups]
    dsimp only
    rw [hlow, hhigh, hu]
    rw [if_neg (by norm_num)]
    dsimp only
    norm_num
    have h4 : Real.sqrt 4 = 2 := by
      rw [show (4 : ℝ) = 2 ^ 2 by norm_num, Real.sqrt_sq (by norm_num : (0 : ℝ) ≤ 2)]
    rw [h4, neg_div, abs_neg,
      abs_of_pos (by positivity : (0 : ℝ) < (3 / 2) / (Real.sqrt 5 / 2))]
    have hq : (3 / 2 : ℝ) / (Real.sqrt 5 / 2) = 3 / Real.sqrt 5 := by
      rw [div_div_div_comm]
      norm_num
    rw [hq, normalCDF, neg_neg, hsplit]
    ring
  refine ⟨by norm_num, by norm_num, hlow, hhigh, ?_, ?_, ?_⟩
  · rw [hlow, hhigh]
    intro v1 hv1 v2 hv2
    simp only [List.mem_cons, List.mem_singleton, List.not_mem_nil, or_false] at hv1 hv2
    rcases hv1 with rfl | rfl | rfl <;> rw [hv2] <;> norm_num
  · rw [mannWhitneyU, if_neg hlen4, if_neg hgroups]
    dsimp only
    rw [hlow, hhigh, hu]
    split_ifs <;> rfl
  · rw [hmain]
    have := erfc_three_div_sqrt_ten_ge
    linarith

end Throughput
